import Mathlib

/-!
# Verification of `src/dist/src/util/utils.js`

This file gives a shallow embedding of the utility functions of the
repository (URL normalization, timer wrappers, deep/shallow copy and deep
equality) and proves the specified properties about them.

Strings are modelled as `List Char`; `String` wrappers are provided at the
API boundary.  JavaScript's `throw` is modelled by `Except`/`Option`.
-/

/-! ## Generic character-list helpers -/

/-- `startsWithL pre l` is true iff `pre` is a prefix of `l`
(JS `String.prototype.indexOf(pre) === 0` / a `^pre` regular expression). -/
def startsWithL : List Char → List Char → Bool
  | [], _ => true
  | _ :: _, [] => false
  | p :: ps, c :: cs => p == c && startsWithL ps cs

/-- Index of the last `'@'` in a list, if any (JS `String.prototype.lastIndexOf('@')`). -/
def lastIndexOfAt : List Char → Option Nat
  | [] => none
  | c :: cs =>
    match lastIndexOfAt cs with
    | some i => some (i + 1)
    | none => if c == '@' then some 0 else none

/-- The backquote character (code 96), written numerically. -/
def backquoteChar : Char := Char.ofNat 96

/-- The double-quote character (code 34), written numerically. -/
def quoteChar : Char := Char.ofNat 34

/-- The apostrophe character (code 39), written numerically. -/
def apostropheChar : Char := Char.ofNat 39

/-- Whitespace as trimmed by JS `String.prototype.trim` (ASCII whitespace,
vertical tab, form feed, NBSP and the BOM; the rarer Unicode space code
points are outside the model). -/
def isJsSpace (c : Char) : Bool :=
  c == ' ' || c == '\t' || c == '\n' || c == '\r' ||
  c == Char.ofNat 11 || c == Char.ofNat 12 || c == Char.ofNat 160 ||
  c == Char.ofNat 65279

/-- JS `String.prototype.trim` on a character list. -/
def jsTrim (l : List Char) : List Char :=
  ((l.dropWhile isJsSpace).reverse.dropWhile isJsSpace).reverse

/-! ## Node.js legacy `url` module, data model

The source calls `require("url")`: Node's legacy URL parser.  We embed the
parts of `Url.prototype.parse`, `Url.prototype.parseHost` and
`Url.prototype.format` that are reachable from `parseUrl`: the protocol
split, the auth split with `decodeURIComponent` (whose `URIError` is
modelled), the host/port split, the per-label hostname validation loop
with the 255-char hostname cap, the `autoEscape` loop over the post-host
remainder, and the hash/search split.  Deliberate restrictions of the
model, each irrelevant to the properties proved here (all concrete inputs
used below stay inside the modelled fragment):
* the `simplePathPattern` fast path is omitted (it only fires for inputs
  starting with `/`, and `parseUrl` always hands the parser a string
  starting with `ws:` or `wss:`);
* `punycode`/IDNA mapping of hostnames is identity in the model (it is
  identity on ASCII-only hostnames), as is `encodeURIComponent` on the
  auth section of `format`;
* `parseQueryString` is `false` in the source, so the `query` field is
  never consulted by `format` and is not modelled;
* a JS string is a list of code points (astral code points decoded by
  `decodeURIComponent` are one element, not a surrogate pair). -/
structure UrlParts where
  protocol : Option (List Char)
  slashes : Bool
  auth : Option (List Char)
  host : Option (List Char)
  hostname : Option (List Char)
  port : Option (List Char)
  pathname : Option (List Char)
  search : Option (List Char)
  hash : Option (List Char)
deriving Repr, DecidableEq

/-- JS truthiness of a field that is either absent (`null`/`undefined`)
or a string: truthy iff present and non-empty. -/
def truthy : Option (List Char) → Bool
  | some l => !l.isEmpty
  | none => false

/-- Characters matched by Node's `protocolPattern` body `[a-zA-Z0-9.+-]`. -/
def isProtoChar (c : Char) : Bool :=
  c.isAlpha || c.isDigit || c == '.' || c == '+' || c == '-'

/-- Node's `hostEndingChars = ['/', '?', '#']`. -/
def isHostEnding (c : Char) : Bool :=
  c == '/' || c == '?' || c == '#'

/-- Node's `nonHostChars`:
`['%', '/', '?', ';', '#']` together with `autoEscape`
(apostrophe, `{ } | \ ^`, backquote, `< > "`, space, CR, LF, TAB). -/
def isNonHostChar (c : Char) : Bool :=
  c == '%' || c == '/' || c == '?' || c == ';' || c == '#' ||
  c == apostropheChar || c == '{' || c == '}' || c == '|' || c == '\\' ||
  c == '^' || c == backquoteChar || c == '<' || c == '>' || c == quoteChar ||
  c == ' ' || c == '\r' || c == '\n' || c == '\t'

/-- Node's `hostlessProtocol` table (keys carrying a colon, as looked up
with the parsed protocol). -/
def isHostlessProtocol (p : List Char) : Bool :=
  p == "javascript:".data

/-- Node's `slashedProtocol` table (keys carrying a colon, as looked up
with the parsed / colon-terminated protocol). -/
def isSlashedProtocol (p : List Char) : Bool :=
  p == "http:".data || p == "https:".data || p == "ftp:".data ||
  p == "gopher:".data || p == "file:".data

/-- Node's `unsafeProtocol` table (keys carrying a colon, as looked up
with the parsed protocol): protocols whose rest is not auto-escaped. -/
def isUnsafeProtocol (p : List Char) : Bool :=
  p == "javascript:".data

/-- Node `protocolPattern = /^([a-zA-Z0-9.+-]+:)/` match at the start of
the input: returns the lowercased protocol (colon included) and the
remainder, or no protocol and the input unchanged. -/
def protoSplit (cs : List Char) : Option (List Char) × List Char :=
  let run := cs.takeWhile isProtoChar
  match cs.dropWhile isProtoChar with
  | ':' :: rest =>
    if run.isEmpty then (none, cs)
    else (some (run.map Char.toLower ++ [':']), rest)
  | _ => (none, cs)

/-- Node's `rest.match(/^\/\/[^@\/]+@[^@\/]+/)` test (a protocol-less
`//user@host` shape also enables host parsing). -/
def matchesAuthSlashes (rest : List Char) : Bool :=
  match rest with
  | '/' :: '/' :: r =>
    let notSep : Char → Bool := fun c => c != '@' && c != '/'
    let seg1 := r.takeWhile notSep
    match r.dropWhile notSep with
    | '@' :: r2 => !seg1.isEmpty && !(r2.takeWhile notSep).isEmpty
    | _ => false
  | _ => false

/-- Hexadecimal digit value (`[0-9a-fA-F]`), used by `decodeURIComponent`
percent-escapes and by the JSON reader's `\uXXXX` escapes. -/
def hexVal (c : Char) : Option Nat :=
  if 48 ≤ c.toNat && c.toNat ≤ 57 then some (c.toNat - 48)
  else if 97 ≤ c.toNat && c.toNat ≤ 102 then some (c.toNat - 87)
  else if 65 ≤ c.toNat && c.toNat ≤ 70 then some (c.toNat - 55)
  else none

/-- The message of the `URIError` thrown by `decodeURIComponent`. -/
def msgUriMalformed : List Char := "URI malformed".data

/-- One `%XY` percent-escape: its byte value and the remaining input. -/
def percentByte : List Char → Option (Nat × List Char)
  | '%' :: h1 :: h2 :: r =>
    (match hexVal h1, hexVal h2 with
     | some a, some b => some (a * 16 + b, r)
     | _, _ => none)
  | _ => none

/-- `n` UTF-8 continuation escapes `%XY` (each byte of shape `10xxxxxx`). -/
def contBytes : Nat → List Char → Option (List Nat × List Char)
  | 0, r => some ([], r)
  | n + 1, r =>
    match percentByte r with
    | some (b, r2) =>
      if 128 ≤ b && b < 192 then (contBytes n r2).map (fun p => (b :: p.1, p.2))
      else none
    | none => none

/-- One escape cluster of ECMA-262 `Decode` starting at a `'%'`: the
decoded code point and the remaining input.  `none` models the thrown
`URIError`: truncated escapes, non-hex digits, a lone continuation byte or
a lead byte of five or more leading ones, missing or malformed
continuation bytes, overlong encodings, surrogate code points, and values
beyond `U+10FFFF`. -/
def decodeEscape (cs : List Char) : Option (Nat × List Char) :=
  match percentByte cs with
  | none => none
  | some (b0, r0) =>
    if b0 < 128 then some (b0, r0)
    else if b0 < 192 then none
    else if b0 < 224 then
      match contBytes 1 r0 with
      | some ([b1], r1) =>
        let v := (b0 - 192) * 64 + (b1 - 128)
        if 128 ≤ v then some (v, r1) else none
      | _ => none
    else if b0 < 240 then
      match contBytes 2 r0 with
      | some ([b1, b2], r1) =>
        let v := ((b0 - 224) * 64 + (b1 - 128)) * 64 + (b2 - 128)
        if 2048 ≤ v && !(55296 ≤ v && v ≤ 57343) then some (v, r1) else none
      | _ => none
    else if b0 < 248 then
      match contBytes 3 r0 with
      | some ([b1, b2, b3], r1) =>
        let v := (((b0 - 240) * 64 + (b1 - 128)) * 64 + (b2 - 128)) * 64 + (b3 - 128)
        if 65536 ≤ v && v ≤ 1114111 then some (v, r1) else none
      | _ => none
    else none

/-- Fuel-indexed main loop of `decodeURIComponent` (each step consumes at
least one character, so `length + 1` fuel always suffices). -/
def decodeURIGo : Nat → List Char → Option (List Char)
  | 0, _ => none
  | _ + 1, [] => some []
  | f + 1, c :: cs =>
    if c == '%' then
      match decodeEscape (c :: cs) with
      | some (v, r) => (decodeURIGo f r).map (fun t => Char.ofNat v :: t)
      | none => none
    else (decodeURIGo f cs).map (fun t => c :: t)

/-- `decodeURIComponent` (ECMA-262 `Decode` with an empty reserved set);
`none` models the thrown `URIError`. -/
def decodeURIComponentL (l : List Char) : Option (List Char) :=
  decodeURIGo (l.length + 1) l

/-- `decodeURIComponent` applied to an optional auth section
(`this.auth = decodeURIComponent(auth)` runs only when an auth section was
split off). -/
def decodeAuth : Option (List Char) → Option (Option (List Char))
  | none => some none
  | some a => (decodeURIComponentL a).map some

/-- Characters of Node's `hostnamePartPattern` body `[+a-z0-9A-Z_-]`. -/
def isHostPartChar (c : Char) : Bool :=
  c == '+' || ('a' ≤ c && c ≤ 'z') || ('0' ≤ c && c ≤ '9') ||
  ('A' ≤ c && c ≤ 'Z') || c == '_' || c == '-'

/-- A hostname label passes Node's validation iff it is at most 63
characters and, after the loop replacing each non-ASCII character by the
placeholder `'x'`, matches `hostnamePartPattern = /^[+a-z0-9A-Z_-]{0,63}$/`
(an already matching label passes the first test with the same outcome). -/
def hostPartOk (part : List Char) : Bool :=
  part.length ≤ 63 && part.all (fun c => 127 < c.toNat || isHostPartChar c)

/-- `String.prototype.split(/\./)` on a character list: the dot-separated
labels, with empty labels preserved (`splitDot [] = [[]]`, like
`''.split(/\./) === ['']`). -/
def splitDot : List Char → List (List Char)
  | [] => [[]]
  | c :: cs =>
    if c == '.' then [] :: splitDot cs
    else
      match splitDot cs with
      | h :: t => (c :: h) :: t
      | [] => [[c]]

/-- JS line terminators (not matched by `.` in a regular expression). -/
def isLineTerminator (c : Char) : Bool :=
  c == '\n' || c == '\r' || c.toNat == 8232 || c.toNat == 8233

/-- The per-label loop of the hostname validation: `none` when every label
passes; otherwise, at the first failing label, the kept labels (everything
before it plus the `{0,63}`-prefix match of `hostnamePartStart`, when that
regular expression matches at all) and the labels to push back into the
path.  A failing label containing a line terminator in its remainder
defeats `hostnamePartStart = /^([+a-z0-9A-Z_-]{0,63})(.*)$/` (`.` does not
cross line terminators), so `bit` is `null` and the label is dropped from
both sides. -/
def validateParts : List (List Char) → Option (List (List Char) × List (List Char))
  | [] => none
  | part :: ps =>
    if hostPartOk part then
      match validateParts ps with
      | none => none
      | some (vp, nh) => some (part :: vp, nh)
    else
      let pre := (part.takeWhile isHostPartChar).take 63
      let rem := part.drop pre.length
      if rem.any isLineTerminator then some ([], ps)
      else some ([pre], rem :: ps)

/-- Node's hostname validation (`if (!ipv6Hostname) { ... }` in
`Url.prototype.parse`): split the hostname on dots, keep the labels up to
the first failing one (truncated via `hostnamePartStart`), and push the
remainder — when non-empty — back onto the front of the rest, behind a
`'/'`. -/
def validateHostname (hn rest : List Char) : List Char × List Char :=
  match validateParts (splitDot hn) with
  | none => (hn, rest)
  | some (vp, nh) =>
    (List.intercalate ['.'] vp,
     if nh.isEmpty then rest else '/' :: List.intercalate ['.'] nh ++ rest)

/-- One character of the `autoEscape` loop: each of the `autoEscape`
characters is replaced by its percent-escape
(`encodeURIComponent`, or `escape` for the apostrophe, which
`encodeURIComponent` leaves alone); every other character is kept.  The
loop over the list is a per-character map because no escape output
contains a later `autoEscape` character. -/
def autoEscapeChar (c : Char) : List Char :=
  if c == '{' then "%7B".data
  else if c == '}' then "%7D".data
  else if c == '|' then "%7C".data
  else if c == '\\' then "%5C".data
  else if c == '^' then "%5E".data
  else if c == backquoteChar then "%60".data
  else if c == apostropheChar then "%27".data
  else if c == '<' then "%3C".data
  else if c == '>' then "%3E".data
  else if c == quoteChar then "%22".data
  else if c == ' ' then "%20".data
  else if c == '\r' then "%0D".data
  else if c == '\n' then "%0A".data
  else if c == '\t' then "%09".data
  else [c]

/-- The `autoEscape` loop of `Url.prototype.parse` over the post-host
remainder. -/
def autoEscapeStr (l : List Char) : List Char := (l.map autoEscapeChar).flatten

/-- The `autoEscape` character set (`['{','}','|','\\','^',backquote,
apostrophe] ++ delims`). -/
def isAutoEscapedChar (c : Char) : Bool :=
  c == '{' || c == '}' || c == '|' || c == '\\' || c == '^' ||
  c == backquoteChar || c == apostropheChar || c == '<' || c == '>' ||
  c == quoteChar || c == ' ' || c == '\r' || c == '\n' || c == '\t'

/-- The auth split of `Url.prototype.parse`: the host region ends at the
first of `/ ? #` (or at the end of the string); the last `'@'` inside that
region, when present, separates the auth section from the rest
(`urlParseL` then applies `decodeURIComponent` to the auth section, per
`this.auth = decodeURIComponent(auth)`). -/
def authHostSplit (rest : List Char) : Option (List Char) × List Char :=
  let pre := rest.takeWhile (fun c => !isHostEnding c)
  let region := if (rest.dropWhile (fun c => !isHostEnding c)).isEmpty then rest else pre
  match lastIndexOfAt region with
  | some i => (some (rest.take i), rest.drop (i + 1))
  | none => (none, rest)

/-- The host is the longest run of characters outside `nonHostChars`;
returns `(host, remainder)`. -/
def takeHost (rest : List Char) : List Char × List Char :=
  (rest.takeWhile (fun c => !isNonHostChar c), rest.dropWhile (fun c => !isNonHostChar c))

/-- `Url.prototype.parseHost`: strip a trailing `portPattern = /:[0-9]*$/`
match off the host; the digits (when non-empty) become the port. -/
def parseHostPort (host : List Char) : List Char × Option (List Char) :=
  let revD := host.reverse.takeWhile Char.isDigit
  match host.reverse.dropWhile Char.isDigit with
  | ':' :: before => (before.reverse, if revD.isEmpty then none else some revD.reverse)
  | _ => (host, none)

/-- Tail of `Url.prototype.parse`: split the remainder into hash (from the
first `'#'`), search (from the first `'?'` before the hash) and pathname,
then apply the slashed-protocol `pathname = '/'` defaulting. -/
def finishTail (proto : Option (List Char)) (slashes : Bool) (auth : Option (List Char))
    (host hostname port : Option (List Char)) (rest : List Char) : UrlParts :=
  let beforeHash := rest.takeWhile (fun c => c != '#')
  let hashPart := rest.dropWhile (fun c => c != '#')
  let hash := if hashPart.isEmpty then none else some hashPart
  let pathPart := beforeHash.takeWhile (fun c => c != '?')
  let searchPart := beforeHash.dropWhile (fun c => c != '?')
  let search := if searchPart.isEmpty then none else some searchPart
  let pathname0 : Option (List Char) := if pathPart.isEmpty then none else some pathPart
  let pathname :=
    if (match proto with | some p => isSlashedProtocol p | none => false) &&
        truthy hostname && pathname0.isNone then
      some ['/']
    else pathname0
  { protocol := proto, slashes := slashes, auth := auth, host := host,
    hostname := hostname, port := port, pathname := pathname,
    search := search, hash := hash }

/-- `URL.parse` (Node legacy `Url.prototype.parse` with
`parseQueryString = false`, `slashesDenoteHost = false`), restricted as
documented on `UrlParts`; `Except.error` is the `URIError` thrown by
`decodeURIComponent` on the auth section. -/
def urlParseL (input : List Char) : Except (List Char) UrlParts :=
  let cs := jsTrim input
  let ps := protoSplit cs
  let proto := ps.1
  let rest1 := ps.2
  let canHaveHost := proto.isSome || matchesAuthSlashes rest1
  let slashesL := canHaveHost && startsWithL ['/', '/'] rest1
  let protoHostless := match proto with | some p => isHostlessProtocol p | none => false
  let dropSlashes := slashesL && !(proto.isSome && protoHostless)
  let rest2 := if dropSlashes then rest1.drop 2 else rest1
  let protoNotSlashed := match proto with | some p => !isSlashedProtocol p | none => false
  let hostCond := !protoHostless && (slashesL || protoNotSlashed)
  let protoUnsafe := match proto with | some p => isUnsafeProtocol p | none => false
  if hostCond then
    match decodeAuth (authHostSplit rest2).1 with
    | none => .error msgUriMalformed
    | some auth =>
      let th := takeHost (authHostSplit rest2).2
      let hostRaw := th.1
      let rest3 := th.2
      let hp := parseHostPort hostRaw
      let hn0 := hp.1
      let port := hp.2
      let ipv6 := hn0.head? == some '[' && hn0.getLast? == some ']'
      let vh := if ipv6 then (hn0, rest3) else validateHostname hn0 rest3
      let hnV := vh.1
      let rest3v := vh.2
      let hn1 := if 255 < hnV.length then [] else hnV.map Char.toLower
      let hostOut := hn1 ++ (match port with | some p => ':' :: p | none => [])
      let hn2 := if ipv6 then (hn1.drop 1).dropLast else hn1
      let rest4 := if ipv6 && !startsWithL ['/'] rest3v then '/' :: rest3v else rest3v
      let rest5 := if protoUnsafe then rest4 else autoEscapeStr rest4
      .ok (finishTail proto dropSlashes auth (some hostOut) (some hn2) port rest5)
  else
    let rest5 := if protoUnsafe then rest2 else autoEscapeStr rest2
    .ok (finishTail proto dropSlashes none none none none rest5)

/-- Replace `'?'` by `%3F` and `'#'` by `%23` everywhere
(`pathname.replace(/[?#]/g, encodeURIComponent)` in `format`). -/
def escapePathChars (l : List Char) : List Char :=
  (l.map (fun c =>
    if c == '?' then '%' :: '3' :: 'F' :: []
    else if c == '#' then '%' :: '2' :: '3' :: []
    else [c])).flatten

/-- Replace the first `'#'` by `%23` (`search.replace('#', '%23')`,
a string pattern, hence first occurrence only). -/
def replaceFirstHash : List Char → List Char
  | [] => []
  | '#' :: r => '%' :: '2' :: '3' :: r
  | c :: r => c :: replaceFirstHash r

/-- `URL.format` (Node legacy `Url.prototype.format`) on the modelled
fields.  `encodeURIComponent` on the auth section is elided; the `query`
field is never an object here (see `UrlParts`), so the querystring branch
is dead and `search` is used as is. -/
def urlFormat (u : UrlParts) : List Char :=
  let auth := match u.auth with
    | some a => if a.isEmpty then [] else a ++ ['@']
    | none => []
  let protocol0 := u.protocol.getD []
  let pathname0 := u.pathname.getD []
  let hash0 := u.hash.getD []
  let hostOpt : Option (List Char) :=
    if truthy u.host then some (auth ++ u.host.getD [])
    else if truthy u.hostname then
      let hn := u.hostname.getD []
      let base := if hn.contains ':' then '[' :: hn ++ [']'] else hn
      some (auth ++ base ++
        (if truthy u.port then ':' :: u.port.getD [] else []))
    else none
  let search0 := u.search.getD []
  let protocol1 :=
    if !protocol0.isEmpty && protocol0.getLast? != some ':' then protocol0 ++ [':']
    else protocol0
  let hp :=
    if u.slashes || ((protocol1.isEmpty || isSlashedProtocol protocol1) && hostOpt.isSome) then
      ('/' :: '/' :: hostOpt.getD [],
       if !pathname0.isEmpty && pathname0.head? != some '/' then '/' :: pathname0 else pathname0)
    else (hostOpt.getD [], pathname0)
  let hash1 := if !hash0.isEmpty && hash0.head? != some '#' then '#' :: hash0 else hash0
  let search1 := if !search0.isEmpty && search0.head? != some '?' then '?' :: search0 else search0
  protocol1 ++ hp.1 ++ escapePathChars hp.2 ++ replaceFirstHash search1 ++ hash1

/-! ## The URL normalizer of `utils.js` -/

/-- Regular expression `hasUrlProtocol = /^wss:|^ws:|^\/\//` as a test. -/
def hasUrlProtocolL (l : List Char) : Bool :=
  startsWithL "wss:".data l || startsWithL "ws:".data l || startsWithL "//".data l

/-- Regular expression `unsupportedProtocol = /^http:|^https:/` as a test. -/
def unsupportedProtocolL (l : List Char) : Bool :=
  startsWithL "http:".data l || startsWithL "https:".data l

/-- The error message thrown for `http:`/`https:` inputs. -/
def msgOnlyWs : List Char := "Only ws and wss are supported".data

/-- The error message thrown when the parsed URL has no host. -/
def msgInvalidUrl : List Char := "invalid url, missing host".data

/-- The scheme-prepending step of `parseUrl`: prepend `ws://` when no
recognized protocol is present, and only `ws:` when the input is
protocol-relative (starts with `//`). -/
def normalizeSchemeL (url : List Char) : List Char :=
  if !hasUrlProtocolL url then "ws://".data ++ url
  else if startsWithL "//".data url then "ws:".data ++ url
  else url

/-- The final `serverUrl` value of `parseUrl` after the protocol and
pathname defaulting ternaries, for an input whose parse does not throw
(`parseUrlL` propagates a throwing parse before this value is ever used;
on a throwing parse this helper returns the all-empty record). -/
def finalServerUrl (initialURl defaultPath : List Char) : UrlParts :=
  match urlParseL (normalizeSchemeL initialURl) with
  | .ok serverUrl =>
    { serverUrl with
      protocol := if truthy serverUrl.protocol then serverUrl.protocol else some "ws:".data,
      pathname := if truthy serverUrl.pathname then serverUrl.pathname else some defaultPath }
  | .error _ =>
    { protocol := none, slashes := false, auth := none, host := none,
      hostname := none, port := none, pathname := none, search := none, hash := none }

/-- `exports.parseUrl` of `utils.js` on character lists.  `throw` is
modelled by `Except.error` carrying the thrown message; a `URIError`
escaping `url.parse` propagates to the caller uncaught. -/
def parseUrlL (initialURl defaultPath : List Char) : Except (List Char) (List Char) :=
  if unsupportedProtocolL initialURl then .error msgOnlyWs
  else
    match urlParseL (normalizeSchemeL initialURl) with
    | .error e => .error e
    | .ok serverUrl =>
      if !truthy serverUrl.host then .error msgInvalidUrl
      else .ok (urlFormat (finalServerUrl initialURl defaultPath))

/-- `exports.parseUrl` on `String`s. -/
def parseUrl (initialURl defaultPath : String) : Except String String :=
  match parseUrlL initialURl.data defaultPath.data with
  | .error e => .error ⟨e⟩
  | .ok r => .ok ⟨r⟩


/-! ## Timer wrappers of `utils.js`

`exports.setTimeout` and `exports.setInterval` test their duration against
`null` and, in the non-`null` branch, call *themselves* (`exports.setTimeout`
refers to the wrapper being defined, not to any platform timer), so that
branch never terminates.  General recursion is embedded with a fuel
parameter: `none` means the computation did not finish within the given
fuel, for any fuel. -/

/-- `exports.setTimeout` of `utils.js`.  `timeoutDuration = none` models
passing `null`. -/
def setTimeoutFuel {α : Type} (callback : α) : Nat → Option Int → Option Int
  | 0, _ => none
  | fuel + 1, timeoutDuration =>
    if timeoutDuration ≠ none then setTimeoutFuel callback fuel timeoutDuration
    else some (-1)

/-- `exports.setInterval` of `utils.js`. -/
def setIntervalFuel {α : Type} (callback : α) : Nat → Option Int → Option Int
  | 0, _ => none
  | fuel + 1, intervalDuration =>
    if intervalDuration ≠ none then setIntervalFuel callback fuel intervalDuration
    else some (-1)

/-! ## JavaScript values, `JSON.stringify` / `JSON.parse`

Model of the JSON-serializable fragment of JavaScript values used by
`deepEquals`, `deepCopy` and `shallowCopy`: `null`, booleans, (integer)
numbers, strings, arrays and plain objects.  Restrictions of the model:
numbers are integers (doubles and their formatting are outside the model);
strings are Unicode scalar sequences (JS lone surrogates are not
representable as Lean `Char`s); object keys are kept in insertion order
(the JS reordering of integer-like keys is not modelled, and none of the
properties below depend on key order beyond equality of the lists). -/
inductive JSValue where
  | null
  | bool (b : Bool)
  | num (n : Int)
  | str (s : List Char)
  | arr (elems : List JSValue)
  | obj (members : List (List Char × JSValue))
deriving Repr

/-! Structural equality of JS values.  It is used to model `===` inside
`deepEquals`: on primitives `===` is value equality, which coincides with
structural equality; on objects `===` is reference equality, which
structural equality over-approximates — but `deepEquals` falls back to
comparing `JSON.stringify` images exactly when both sides are objects, and
structurally equal objects have equal images, so the *result* of
`deepEquals` is unchanged by this modelling choice. -/
mutual

/-- Structural equality, value case (see the comment above). -/
def jsvBeq : JSValue → JSValue → Bool
  | .null, .null => true
  | .bool a, .bool b => a == b
  | .num a, .num b => a == b
  | .str a, .str b => a == b
  | .arr a, .arr b => jsvBeqList a b
  | .obj a, .obj b => jsvBeqMembers a b
  | _, _ => false

/-- Structural equality on lists of JS values. -/
def jsvBeqList : List JSValue → List JSValue → Bool
  | [], [] => true
  | a :: as', b :: bs => jsvBeq a b && jsvBeqList as' bs
  | _, _ => false

/-- Structural equality on object member lists. -/
def jsvBeqMembers : List (List Char × JSValue) → List (List Char × JSValue) → Bool
  | [], [] => true
  | (ka, va) :: as', (kb, vb) :: bs => ka == kb && jsvBeq va vb && jsvBeqMembers as' bs
  | _, _ => false

end

/-- JS `typeof`.  Note `typeof null === 'object'`. -/
def typeofJS : JSValue → String
  | .null => "object"
  | .bool _ => "boolean"
  | .num _ => "number"
  | .str _ => "string"
  | .arr _ => "object"
  | .obj _ => "object"

/-- Decimal digit to character. -/
def toDigitChar (n : Nat) : Char :=
  match n with
  | 0 => '0' | 1 => '1' | 2 => '2' | 3 => '3' | 4 => '4'
  | 5 => '5' | 6 => '6' | 7 => '7' | 8 => '8' | _ => '9'

/-- Character to decimal digit test. -/
def isDigitChar (c : Char) : Bool :=
  c == '0' || c == '1' || c == '2' || c == '3' || c == '4' ||
  c == '5' || c == '6' || c == '7' || c == '8' || c == '9'

/-- Decimal rendering of a natural number, most significant digit first
(fuel-indexed so that the definition is structural; `natToChars` supplies
enough fuel for any input). -/
def natToCharsGo : Nat → Nat → List Char
  | 0, _ => []
  | fuel + 1, n =>
    if n < 10 then [toDigitChar n]
    else natToCharsGo fuel (n / 10) ++ [toDigitChar (n % 10)]

/-- Decimal rendering of a natural number. -/
def natToChars (n : Nat) : List Char := natToCharsGo (n + 1) n

/-- Decimal rendering of an integer, as produced by JS number-to-string
conversion on integers. -/
def intToChars (n : Int) : List Char :=
  if n < 0 then '-' :: natToChars n.natAbs else natToChars n.toNat

/-- Lowercase hexadecimal digit, as emitted by `JSON.stringify` in
`\u00xx` escapes. -/
def hexDigitChar (n : Nat) : Char :=
  match n with
  | 0 => '0' | 1 => '1' | 2 => '2' | 3 => '3' | 4 => '4'
  | 5 => '5' | 6 => '6' | 7 => '7' | 8 => '8' | 9 => '9'
  | 10 => 'a' | 11 => 'b' | 12 => 'c' | 13 => 'd' | 14 => 'e' | _ => 'f'

/-- `JSON.stringify` escaping of one string character: `"` and `\` get a
backslash, the named control escapes `\b \t \n \f \r` are used where they
exist, other control characters become `\u00xx`, everything else is
emitted verbatim. -/
def escapeChar (c : Char) : List Char :=
  if c == quoteChar then ['\\', quoteChar]
  else if c == '\\' then ['\\', '\\']
  else if c == Char.ofNat 8 then ['\\', 'b']
  else if c == '\t' then ['\\', 't']
  else if c == '\n' then ['\\', 'n']
  else if c == Char.ofNat 12 then ['\\', 'f']
  else if c == '\r' then ['\\', 'r']
  else if c.toNat < 32 then
    ['\\', 'u', '0', '0', hexDigitChar (c.toNat / 16), hexDigitChar (c.toNat % 16)]
  else [c]

/-- `JSON.stringify` escaping of a string body. -/
def escapeString (s : List Char) : List Char := (s.map escapeChar).flatten

/-- A `JSON.stringify` string literal, quotes included. -/
def stringifyStr (s : List Char) : List Char :=
  quoteChar :: escapeString s ++ [quoteChar]

mutual

/-- `JSON.stringify` (no replacer, no indent: compact output, object keys
in insertion order). -/
def jsonStringifyL : JSValue → List Char
  | .null => "null".data
  | .bool true => "true".data
  | .bool false => "false".data
  | .num n => intToChars n
  | .str s => stringifyStr s
  | .arr vs => '[' :: stringifyElems vs ++ [']']
  | .obj ms => '{' :: stringifyMembers ms ++ ['}']

/-- Comma-separated serialization of array elements. -/
def stringifyElems : List JSValue → List Char
  | [] => []
  | [v] => jsonStringifyL v
  | v :: vs => jsonStringifyL v ++ ',' :: stringifyElems vs

/-- Comma-separated serialization of object members. -/
def stringifyMembers : List (List Char × JSValue) → List Char
  | [] => []
  | [(k, v)] => stringifyStr k ++ ':' :: jsonStringifyL v
  | (k, v) :: ms => stringifyStr k ++ ':' :: jsonStringifyL v ++ ',' :: stringifyMembers ms

end

/-- JSON whitespace (as skipped by `JSON.parse`). -/
def isWsChar (c : Char) : Bool :=
  c == ' ' || c == '\t' || c == '\n' || c == '\r'

/-- Skip JSON whitespace. -/
def skipWs (l : List Char) : List Char := l.dropWhile isWsChar

/-- Read a JSON string body after the opening quote; returns the decoded
content and the input after the closing quote.  The accepted escapes are
exactly JSON's: `\" \\ \/ \b \f \n \r \t \uXXXX`. -/
def readStr : List Char → Option (List Char × List Char)
  | [] => none
  | c :: cs =>
    if c == quoteChar then some ([], cs)
    else if c == '\\' then
      match cs with
      | [] => none
      | e :: cs2 =>
        if e == quoteChar then (readStr cs2).map (fun r => (quoteChar :: r.1, r.2))
        else if e == '\\' then (readStr cs2).map (fun r => ('\\' :: r.1, r.2))
        else if e == '/' then (readStr cs2).map (fun r => ('/' :: r.1, r.2))
        else if e == 'b' then (readStr cs2).map (fun r => (Char.ofNat 8 :: r.1, r.2))
        else if e == 'f' then (readStr cs2).map (fun r => (Char.ofNat 12 :: r.1, r.2))
        else if e == 'n' then (readStr cs2).map (fun r => ('\n' :: r.1, r.2))
        else if e == 'r' then (readStr cs2).map (fun r => ('\r' :: r.1, r.2))
        else if e == 't' then (readStr cs2).map (fun r => ('\t' :: r.1, r.2))
        else if e == 'u' then
          match cs2 with
          | h1 :: h2 :: h3 :: h4 :: cs3 =>
            match hexVal h1, hexVal h2, hexVal h3, hexVal h4 with
            | some a, some b, some c1, some d =>
              (readStr cs3).map
                (fun r => (Char.ofNat (((a * 16 + b) * 16 + c1) * 16 + d) :: r.1, r.2))
            | _, _, _, _ => none
          | _ => none
        else none
    else (readStr cs).map (fun r => (c :: r.1, r.2))

/-- Accumulating decimal reader. -/
def digitsToNat (acc : Nat) : List Char → Nat
  | [] => acc
  | c :: cs => digitsToNat (acc * 10 + (c.toNat - 48)) cs

/-- Read a JSON integer (optional minus sign, then digits).  Fractional
and exponent parts are outside the model (numbers are integers here). -/
def readNum (l : List Char) : Option (Int × List Char) :=
  match l with
  | '-' :: r =>
    let ds := r.takeWhile isDigitChar
    if ds.isEmpty then none
    else some (-(digitsToNat 0 ds : Int), r.dropWhile isDigitChar)
  | _ =>
    let ds := l.takeWhile isDigitChar
    if ds.isEmpty then none
    else some ((digitsToNat 0 ds : Int), l.dropWhile isDigitChar)

/-- Intermediate results of the JSON parser: a value, a list of array
elements, or a list of object members. -/
inductive PRes where
  | one (v : JSValue)
  | elems (vs : List JSValue)
  | members (ms : List (List Char × JSValue))

/-- Parsing modes of the JSON parser. -/
inductive PMode where
  | val
  | elems
  | members

/-- Recursive-descent JSON parser, fuel-indexed (structural on the fuel so
that it computes by reduction).  `PMode.elems` parses the members of a
non-empty array after its `[`, `PMode.members` the members of a non-empty
object after its `{`, consuming the closing bracket. -/
def jparse : Nat → PMode → List Char → Option (PRes × List Char)
  | 0, _, _ => none
  | fuel + 1, .val, cs =>
    match skipWs cs with
    | [] => none
    | c :: cs1 =>
      if c == quoteChar then (readStr cs1).map (fun r => (.one (.str r.1), r.2))
      else if c == '[' then
        match skipWs cs1 with
        | ']' :: cs2 => some (.one (.arr []), cs2)
        | _ =>
          match jparse fuel .elems cs1 with
          | some (.elems vs, rest) => some (.one (.arr vs), rest)
          | _ => none
      else if c == '{' then
        match skipWs cs1 with
        | '}' :: cs2 => some (.one (.obj []), cs2)
        | _ =>
          match jparse fuel .members cs1 with
          | some (.members ms, rest) => some (.one (.obj ms), rest)
          | _ => none
      else if startsWithL "null".data (c :: cs1) then some (.one .null, cs1.drop 3)
      else if startsWithL "true".data (c :: cs1) then some (.one (.bool true), cs1.drop 3)
      else if startsWithL "false".data (c :: cs1) then some (.one (.bool false), cs1.drop 4)
      else (readNum (c :: cs1)).map (fun r => (.one (.num r.1), r.2))
  | fuel + 1, .elems, cs =>
    match jparse fuel .val cs with
    | some (.one v, r) =>
      (match skipWs r with
       | ',' :: r2 =>
         (match jparse fuel .elems r2 with
          | some (.elems vs, r3) => some (.elems (v :: vs), r3)
          | _ => none)
       | ']' :: r2 => some (.elems [v], r2)
       | _ => none)
    | _ => none
  | fuel + 1, .members, cs =>
    match skipWs cs with
    | [] => none
    | c :: cs1 =>
      if c == quoteChar then
        match readStr cs1 with
        | some (k, r) =>
          (match skipWs r with
           | ':' :: r2 =>
             (match jparse fuel .val r2 with
              | some (.one v, r3) =>
                (match skipWs r3 with
                 | ',' :: r4 =>
                   (match jparse fuel .members r4 with
                    | some (.members ms, r5) => some (.members ((k, v) :: ms), r5)
                    | _ => none)
                 | '}' :: r4 => some (.members [(k, v)], r4)
                 | _ => none)
              | _ => none)
           | _ => none)
        | none => none
      else none

/-- `JSON.parse` (no reviver): parse one value and require only trailing
whitespace after it. -/
def jsonParseL (l : List Char) : Option JSValue :=
  match jparse (l.length + 1) .val l with
  | some (.one v, rest) => if (skipWs rest).isEmpty then some v else none
  | _ => none

/-! ## `deepEquals`, `deepCopy`, `shallowCopy` of `utils.js` -/

/-- `exports.deepEquals`: `===`, then a `typeof` test, then comparison of
the `JSON.stringify` images. -/
def deepEquals (objA objB : JSValue) : Bool :=
  if jsvBeq objA objB then true
  else if typeofJS objA != "object" || typeofJS objB != "object" then false
  else jsonStringifyL objA == jsonStringifyL objB

/-- `exports.deepCopy`: `JSON.parse(JSON.stringify(obj))` for objects
(`none` models `JSON.parse` throwing), the argument itself otherwise. -/
def deepCopy (obj : JSValue) : Option JSValue :=
  if typeofJS obj == "object" then jsonParseL (jsonStringifyL obj) else some obj

/-- JS property write `copy[k] = v` on an object modelled as an
insertion-ordered member list: overwrite an existing binding in place,
otherwise append. -/
def objAssign (copy : List (List Char × JSValue)) (k : List Char) (v : JSValue) :
    List (List Char × JSValue) :=
  if copy.any (fun kv => kv.1 == k) then
    copy.map (fun kv => if kv.1 == k then (k, v) else kv)
  else copy ++ [(k, v)]

/-- `Object.keys` on the model: key list with duplicates removed
(a JS object cannot carry duplicate keys; the reordering of integer-like
keys is not modelled). -/
def objKeys (ms : List (List Char × JSValue)) : List (List Char) :=
  (ms.map Prod.fst).dedup

/-- JS property read `obj[k]`: the first binding of `k`. -/
def objGet (ms : List (List Char × JSValue)) (k : List Char) : JSValue :=
  match ms.find? (fun kv => kv.1 == k) with
  | some kv => kv.2
  | none => .null

/-- `exports.shallowCopy`: `Array.isArray` first (`obj.slice(0)`), then
`typeof obj === 'object'` (a fresh object assembled key by key over
`Object.keys(obj)`) — a branch `null` also enters, where `Object.keys(null)`
throws a `TypeError`, modelled by `none` — and everything else is returned
unchanged. -/
def shallowCopy : JSValue → Option JSValue
  | .arr l => some (.arr (l.drop 0))
  | .obj ms =>
    some (.obj ((objKeys ms).foldl (fun copy k => objAssign copy k (objGet ms k)) []))
  | .null => none
  | v => some v

/-- Key lists without duplicates. -/
def nodupKeysB : List (List Char) → Bool
  | [] => true
  | k :: ks => !ks.contains k && nodupKeysB ks

mutual

/-- Well-formedness of a modelled JS value: object member lists never bind
the same key twice, recursively (automatic for values held by a real JS
object). -/
def jsWellFormed : JSValue → Bool
  | .null => true
  | .bool _ => true
  | .num _ => true
  | .str _ => true
  | .arr vs => jsWellFormedList vs
  | .obj ms => nodupKeysB (ms.map Prod.fst) && jsWellFormedMembers ms

/-- Well-formedness of every element of an array. -/
def jsWellFormedList : List JSValue → Bool
  | [] => true
  | v :: vs => jsWellFormed v && jsWellFormedList vs

/-- Well-formedness of every value of a member list. -/
def jsWellFormedMembers : List (List Char × JSValue) → Bool
  | [] => true
  | (_, v) :: ms => jsWellFormed v && jsWellFormedMembers ms

end

/-! ## The canonical-URL family

`mkCanonicalUrl` describes the already-canonical URLs of the spec: a
supported scheme, a lowercase hostname with optional numeric port, and an
explicit path (or no path, for the path-defaulting property). -/

/-- Characters allowed in a canonical hostname: lowercase ASCII letters,
digits and `. - _ +` (a subset of Node's hostname label alphabet that is
fixed under lowercasing). -/
def lowerHostChars : List Char := "abcdefghijklmnopqrstuvwxyz0123456789.-_+".data

/-- Membership in `lowerHostChars`. -/
def isLowerHostChar (c : Char) : Bool := lowerHostChars.contains c

/-- Characters allowed in a canonical path: anything that is not `?`, `#`,
whitespace or an `autoEscape` character (so the path survives the
`autoEscape` loop, the hash/search split, the `format` escaping and
trimming unchanged). -/
def isPathSafeChar (c : Char) : Bool :=
  !(c == '?') && !(c == '#') && !(isJsSpace c) && !(isAutoEscapedChar c)

/-- `:port` suffix of a host. -/
def portSuffix : Option (List Char) → List Char
  | some p => ':' :: p
  | none => []

/-- A canonical URL string: scheme, host (hostname and optional port) and
path, concatenated. -/
def mkCanonicalUrl (secure : Bool) (hn : List Char) (port : Option (List Char))
    (path : List Char) : List Char :=
  (if secure then "wss://".data else "ws://".data) ++ hn ++ portSuffix port ++ path

/-- Side conditions making `mkCanonicalUrl` canonical: non-empty lowercase
hostname of at most 255 characters whose dot-separated labels have at most
63 characters (longer hostnames are emptied or truncated by the parser's
hostname validation, so they are not fixed points), a non-empty all-digits
port when present, and a path that is absent or starts with `/` and uses
path-safe characters. -/
def CanonicalParts (hn : List Char) (port : Option (List Char)) (path : List Char) : Prop :=
  hn ≠ [] ∧ (∀ c ∈ hn, isLowerHostChar c = true) ∧
  hn.length ≤ 255 ∧ (∀ part ∈ splitDot hn, part.length ≤ 63) ∧
  (match port with
   | some p => p ≠ [] ∧ ∀ c ∈ p, isDigitChar c = true
   | none => True) ∧
  (path = [] ∨ path.head? = some (Char.ofNat 47)) ∧
  (∀ c ∈ path, isPathSafeChar c = true)


/-! ## Fuel bounds for the JSON parser -/

mutual

/-- Fuel needed by `jparse` to parse the serialization of a value (an
upper bound used for the round-trip proof). -/
def sizeJS : JSValue → Nat
  | .null => 1
  | .bool _ => 1
  | .num _ => 1
  | .str _ => 1
  | .arr vs => 1 + sizeElems vs
  | .obj ms => 1 + sizeMembers ms

/-- Fuel needed for an element list. -/
def sizeElems : List JSValue → Nat
  | [] => 1
  | v :: vs => 1 + max (sizeJS v) (sizeElems vs)

/-- Fuel needed for a member list. -/
def sizeMembers : List (List Char × JSValue) → Nat
  | [] => 1
  | (_, v) :: ms => 1 + max (sizeJS v) (sizeMembers ms)

end


/-! ## Generic list lemmas -/

lemma startsWithL_self_append (pre t : List Char) : startsWithL pre (pre ++ t) = true := by
  induction pre with
  | nil => rfl
  | cons c cs ih => simp [startsWithL, ih]

lemma startsWithL_iff (pre l : List Char) :
    startsWithL pre l = true ↔ ∃ t, l = pre ++ t := by
  induction pre generalizing l with
  | nil => simp [startsWithL]
  | cons c cs ih =>
    cases l with
    | nil => simp [startsWithL]
    | cons d ds =>
      simp only [startsWithL, Bool.and_eq_true, beq_iff_eq, ih, List.cons_append,
        List.cons.injEq]
      constructor
      · rintro ⟨rfl, t, rfl⟩; exact ⟨t, rfl, rfl⟩
      · rintro ⟨t, rfl, rfl⟩; exact ⟨rfl, t, rfl⟩

lemma takeWhile_append_all (p : Char → Bool) (l1 l2 : List Char)
    (h : ∀ c ∈ l1, p c = true) :
    (l1 ++ l2).takeWhile p = l1 ++ l2.takeWhile p := by
  induction l1 with
  | nil => simp
  | cons c cs ih =>
    simp [List.takeWhile_cons, h c (by simp), ih fun x hx => h x (by simp [hx])]

lemma dropWhile_append_all (p : Char → Bool) (l1 l2 : List Char)
    (h : ∀ c ∈ l1, p c = true) :
    (l1 ++ l2).dropWhile p = l2.dropWhile p := by
  induction l1 with
  | nil => simp
  | cons c cs ih =>
    simp [List.dropWhile_cons, h c (by simp), ih fun x hx => h x (by simp [hx])]

lemma takeWhile_eq_self_of_all (p : Char → Bool) (l : List Char)
    (h : ∀ c ∈ l, p c = true) : l.takeWhile p = l := by
  induction l with
  | nil => rfl
  | cons c cs ih =>
    simp [List.takeWhile_cons, h c (by simp), ih fun x hx => h x (by simp [hx])]

lemma dropWhile_eq_nil_of_all (p : Char → Bool) (l : List Char)
    (h : ∀ c ∈ l, p c = true) : l.dropWhile p = [] := by
  induction l with
  | nil => rfl
  | cons c cs ih =>
    simp [List.dropWhile_cons, h c (by simp), ih fun x hx => h x (by simp [hx])]

lemma dropWhile_eq_self_of_all (p : Char → Bool) (l : List Char)
    (h : ∀ c ∈ l, p c = false) : l.dropWhile p = l := by
  cases l with
  | nil => rfl
  | cons c cs => simp [List.dropWhile_cons, h c (by simp)]

lemma dropWhile_append_split (p : Char → Bool) (l1 l2 : List Char) :
    (l1 ++ l2).dropWhile p =
      if (l1.dropWhile p).isEmpty then l2.dropWhile p else l1.dropWhile p ++ l2 := by
  induction l1 with
  | nil => simp
  | cons c cs ih =>
    by_cases hc : p c <;> simp [List.dropWhile_cons, hc, ih]

lemma jsTrim_eq_self (l : List Char) (h : ∀ c ∈ l, isJsSpace c = false) :
    jsTrim l = l := by
  unfold jsTrim
  rw [dropWhile_eq_self_of_all _ _ h,
    dropWhile_eq_self_of_all _ _ fun c hc => h c (List.mem_reverse.mp hc),
    List.reverse_reverse]

lemma jsTrim_startsWith (a t : List Char) (ha : ∀ c ∈ a, isJsSpace c = false)
    (h0 : a ≠ []) : ∃ t2, jsTrim (a ++ t) = a ++ t2 := by
  unfold jsTrim
  rw [dropWhile_append_split, if_neg (by simp [dropWhile_eq_self_of_all _ _ ha, h0]),
    dropWhile_eq_self_of_all _ _ ha, List.reverse_append, dropWhile_append_split]
  by_cases he : ((t.reverse.dropWhile isJsSpace).isEmpty)
  · refine ⟨[], ?_⟩
    rw [if_pos he,
      dropWhile_eq_self_of_all _ _ fun c hc => ha c (List.mem_reverse.mp hc),
      List.reverse_reverse, List.append_nil]
  · refine ⟨(t.reverse.dropWhile isJsSpace).reverse, ?_⟩
    rw [if_neg he, List.reverse_append, List.reverse_reverse]

lemma lastIndexOfAt_eq_none (l : List Char) (h : ∀ c ∈ l, (c == '@') = false) :
    lastIndexOfAt l = none := by
  induction l with
  | nil => rfl
  | cons c cs ih =>
    unfold lastIndexOfAt
    rw [ih fun x hx => h x (by simp [hx])]
    simp [h c (by simp)]

/-! ## Structure lemmas about the URL parser -/

lemma finishTail_protocol (proto slashes auth host hostname port rest) :
    (finishTail proto slashes auth host hostname port rest).protocol = proto := by
  simp [finishTail]

lemma finishTail_host (proto slashes auth host hostname port rest) :
    (finishTail proto slashes auth host hostname port rest).host = host := by
  simp [finishTail]

lemma finishTail_pathname_ne_some_nil (proto slashes auth host hostname port rest) :
    (finishTail proto slashes auth host hostname port rest).pathname ≠ some [] := by
  unfold finishTail
  dsimp only
  split
  · simp
  · split
    · simp
    · simp only [ne_eq, Option.some.injEq]
      intro hc
      simp_all

lemma urlParseL_protocol (input : List Char) (u : UrlParts)
    (h : urlParseL input = .ok u) :
    u.protocol = (protoSplit (jsTrim input)).1 := by
  simp only [urlParseL] at h
  split at h
  · split at h
    · exact absurd h (by simp)
    · rw [← Except.ok.inj h, finishTail_protocol]
  · rw [← Except.ok.inj h, finishTail_protocol]

lemma urlParseL_pathname_ne_nil (input : List Char) (u : UrlParts) (p : List Char)
    (h : urlParseL input = .ok u) (hp : u.pathname = some p) : p ≠ [] := by
  intro hnil
  subst hnil
  simp only [urlParseL] at h
  split at h
  · split at h
    · exact absurd h (by simp)
    · exact finishTail_pathname_ne_some_nil _ _ _ _ _ _ _
        (by rw [← Except.ok.inj h] at hp; exact hp)
  · exact finishTail_pathname_ne_some_nil _ _ _ _ _ _ _
      (by rw [← Except.ok.inj h] at hp; exact hp)

lemma protoSplit_ws (t : List Char) :
    protoSplit ('w' :: 's' :: ':' :: t) = (some "ws:".data, t) := by
  have h1 : isProtoChar 'w' = true := by decide
  have h2 : isProtoChar 's' = true := by decide
  have h3 : isProtoChar ':' = false := by decide
  simp [protoSplit, List.takeWhile_cons, List.dropWhile_cons, h1, h2, h3]

lemma protoSplit_wss (t : List Char) :
    protoSplit ('w' :: 's' :: 's' :: ':' :: t) = (some "wss:".data, t) := by
  have h1 : isProtoChar 'w' = true := by decide
  have h2 : isProtoChar 's' = true := by decide
  have h3 : isProtoChar ':' = false := by decide
  simp [protoSplit, List.takeWhile_cons, List.dropWhile_cons, h1, h2, h3]

lemma wsData_chars (t : List Char) : "ws:".data ++ t = 'w' :: 's' :: ':' :: t := rfl

lemma wssData_chars (t : List Char) : "wss:".data ++ t = 'w' :: 's' :: 's' :: ':' :: t := rfl

lemma normalizeSchemeL_shape (l : List Char) :
    (∃ t, normalizeSchemeL l = 'w' :: 's' :: ':' :: t) ∨
    (∃ t, normalizeSchemeL l = 'w' :: 's' :: 's' :: ':' :: t) := by
  unfold normalizeSchemeL
  by_cases h1 : hasUrlProtocolL l
  · by_cases h2 : startsWithL "//".data l
    · exact .inl ⟨l, by simp [h1, h2]⟩
    · have h1' := h1
      unfold hasUrlProtocolL at h1'
      rw [Bool.or_eq_true, Bool.or_eq_true] at h1'
      rcases h1' with (hw | hw) | hw
      · obtain ⟨t, rfl⟩ := (startsWithL_iff _ _).mp hw
        rw [wssData_chars] at h1 h2 ⊢
        exact .inr ⟨t, by simp [h1, h2]⟩
      · obtain ⟨t, rfl⟩ := (startsWithL_iff _ _).mp hw
        rw [wsData_chars] at h1 h2 ⊢
        exact .inl ⟨t, by simp [h1, h2]⟩
      · exact absurd hw (by simp [h2])
  · exact .inl ⟨'/' :: '/' :: l, by simp [h1]⟩

lemma protocol_of_normalized (l : List Char) (u : UrlParts)
    (h : urlParseL (normalizeSchemeL l) = .ok u) :
    u.protocol = some "ws:".data ∨ u.protocol = some "wss:".data := by
  rw [urlParseL_protocol _ _ h]
  rcases normalizeSchemeL_shape l with ⟨t, ht⟩ | ⟨t, ht⟩ <;> rw [ht]
  · obtain ⟨t2, ht2⟩ := jsTrim_startsWith "ws:".data t (by decide) (by decide)
    rw [wsData_chars] at ht2
    rw [ht2, wsData_chars, protoSplit_ws]
    exact .inl rfl
  · obtain ⟨t2, ht2⟩ := jsTrim_startsWith "wss:".data t (by decide) (by decide)
    rw [wssData_chars] at ht2
    rw [ht2, wssData_chars, protoSplit_wss]
    exact .inr rfl

/-! ## Branch lemmas for `parseUrl` -/

lemma parseUrlL_of_unsupported (s d : List Char) (h : unsupportedProtocolL s = true) :
    parseUrlL s d = .error msgOnlyWs := by
  simp [parseUrlL, h]

lemma urlParseL_error_msg (input : List Char) (e : List Char)
    (h : urlParseL input = .error e) : e = msgUriMalformed := by
  simp only [urlParseL] at h
  split at h
  · split at h
    · exact (Except.error.inj h).symm
    · exact absurd h (by simp)
  · exact absurd h (by simp)

lemma parseUrlL_of_uriError (s d : List Char) (e : List Char)
    (h1 : unsupportedProtocolL s = false)
    (h2 : urlParseL (normalizeSchemeL s) = .error e) :
    parseUrlL s d = .error e := by
  simp [parseUrlL, h1, h2]

lemma parseUrlL_of_no_host (s d : List Char) (u : UrlParts)
    (h1 : unsupportedProtocolL s = false)
    (h2 : urlParseL (normalizeSchemeL s) = .ok u)
    (h3 : truthy u.host = false) :
    parseUrlL s d = .error msgInvalidUrl := by
  simp [parseUrlL, h1, h2, h3]

lemma parseUrlL_of_host (s d : List Char) (u : UrlParts)
    (h1 : unsupportedProtocolL s = false)
    (h2 : urlParseL (normalizeSchemeL s) = .ok u)
    (h3 : truthy u.host = true) :
    parseUrlL s d = .ok (urlFormat (finalServerUrl s d)) := by
  simp [parseUrlL, h1, h2, h3]

lemma parseUrlL_cases (s d : List Char) :
    parseUrlL s d = .error msgOnlyWs ∨ parseUrlL s d = .error msgUriMalformed ∨
    parseUrlL s d = .error msgInvalidUrl ∨
    parseUrlL s d = .ok (urlFormat (finalServerUrl s d)) := by
  by_cases h1 : unsupportedProtocolL s
  · exact .inl (parseUrlL_of_unsupported s d h1)
  · cases h2 : urlParseL (normalizeSchemeL s) with
    | error e =>
      refine .inr (.inl ?_)
      rw [← urlParseL_error_msg _ _ h2]
      exact parseUrlL_of_uriError s d e (by simp [h1]) h2
    | ok u =>
      by_cases h3 : truthy u.host
      · exact .inr (.inr (.inr (parseUrlL_of_host s d u (by simp [h1]) h2 h3)))
      · exact .inr (.inr (.inl
          (parseUrlL_of_no_host s d u (by simp [h1]) h2 (by simpa using h3))))

lemma parseUrlL_ok_host (s d r : List Char) (h : parseUrlL s d = .ok r) :
    ∃ u, urlParseL (normalizeSchemeL s) = .ok u ∧ truthy u.host = true := by
  by_cases h1 : unsupportedProtocolL s
  · rw [parseUrlL_of_unsupported s d h1] at h
    exact absurd h (by simp)
  · cases h2 : urlParseL (normalizeSchemeL s) with
    | error e =>
      rw [parseUrlL_of_uriError s d e (by simp [h1]) h2] at h
      exact absurd h (by simp)
    | ok u =>
      by_cases h3 : truthy u.host
      · exact ⟨u, rfl, h3⟩
      · rw [parseUrlL_of_no_host s d u (by simp [h1]) h2 (by simpa using h3)] at h
        exact absurd h (by simp)

lemma parseUrlL_ok_not_unsupported (s d r : List Char) (h : parseUrlL s d = .ok r) :
    unsupportedProtocolL s = false := by
  by_cases h1 : unsupportedProtocolL s
  · rw [parseUrlL_of_unsupported s d h1] at h
    exact absurd h (by simp)
  · simp [h1]

/-! ## `String`-level wrappers -/

lemma parseUrl_ok_iff (s d r : String) :
    parseUrl s d = .ok r ↔ parseUrlL s.data d.data = .ok r.data := by
  unfold parseUrl
  obtain ⟨rl⟩ := r
  cases h : parseUrlL s.data d.data <;> simp [String.ext_iff]

lemma parseUrl_error_iff (s d : String) (m : List Char) :
    parseUrl s d = .error ⟨m⟩ ↔ parseUrlL s.data d.data = .error m := by
  unfold parseUrl
  cases h : parseUrlL s.data d.data <;> simp [String.ext_iff]

/-! ## Claim theorems: URL normalization -/

/-- C1: for every input string beginning with `http:` or `https:` and every
default path, `parseUrl` fails with the unsupported-protocol error
`Only ws and wss are supported` and returns no result. -/
theorem parseUrl_http_error (s d : String)
    (h : startsWithL "http:".data s.data = true ∨
         startsWithL "https:".data s.data = true) :
    parseUrl s d = .error "Only ws and wss are supported" := by
  have hu : unsupportedProtocolL s.data = true := by
    unfold unsupportedProtocolL
    rcases h with h | h <;> simp [h]
  exact (parseUrl_error_iff s d msgOnlyWs).mpr (parseUrlL_of_unsupported _ _ hu)

/-- Witness for C1 at `http://example.com`. -/
theorem parseUrl_http_error_witness :
    (startsWithL "http:".data "http://example.com".data = true ∨
     startsWithL "https:".data "http://example.com".data = true) ∧
    parseUrl "http://example.com" "/socket" = .error "Only ws and wss are supported" :=
  ⟨.inl (by decide), parseUrl_http_error "http://example.com" "/socket" (.inl (by decide))⟩

/-- C3 counterexample: with the default path `""`, the call
`parseUrl "ws://example.com" ""` succeeds while the final `serverUrl`
carries an empty pathname (the returned string `ws://example.com` has no
path), so the claim fails for arbitrary default paths. -/
theorem parseUrl_result_shape_counterexample :
    ¬ (∀ (s d r : String), parseUrl s d = .ok r →
      ((finalServerUrl s.data d.data).protocol = some "ws:".data ∨
       (finalServerUrl s.data d.data).protocol = some "wss:".data) ∧
      truthy (finalServerUrl s.data d.data).host = true ∧
      truthy (finalServerUrl s.data d.data).pathname = true) := by
  intro h
  have h2 := (h "ws://example.com" "" "ws://example.com" (by rfl)).2.2
  rw [show (finalServerUrl "ws://example.com".data "".data).pathname = some [] from rfl] at h2
  exact absurd h2 (by decide)

/-- C3 (amended: the default path must be non-empty; with an empty default
path an input without an explicit path yields an empty pathname): whenever
`parseUrl` succeeds, the returned string is the serialization of the final
`serverUrl`, whose protocol is one of `ws:`/`wss:`, whose host is
non-empty, and whose pathname is non-empty. -/
theorem parseUrl_result_shape (s d : String) (hd : d ≠ "") (r : String)
    (h : parseUrl s d = .ok r) :
    r.data = urlFormat (finalServerUrl s.data d.data) ∧
    ((finalServerUrl s.data d.data).protocol = some "ws:".data ∨
     (finalServerUrl s.data d.data).protocol = some "wss:".data) ∧
    truthy (finalServerUrl s.data d.data).host = true ∧
    truthy (finalServerUrl s.data d.data).pathname = true := by
  have hL := (parseUrl_ok_iff s d r).mp h
  have hns := parseUrlL_ok_not_unsupported _ _ _ hL
  obtain ⟨u, hu, hhost⟩ := parseUrlL_ok_host _ _ _ hL
  have hfs : finalServerUrl s.data d.data =
      { u with
        protocol := if truthy u.protocol then u.protocol else some "ws:".data,
        pathname := if truthy u.pathname then u.pathname else some d.data } := by
    unfold finalServerUrl
    rw [hu]
  refine ⟨?_, ?_, ?_, ?_⟩
  · rw [parseUrlL_of_host _ _ u hns hu hhost] at hL
    exact (Except.ok.inj hL).symm
  · rcases protocol_of_normalized s.data u hu with hp | hp
    · left
      rw [hfs]
      show (if truthy u.protocol then u.protocol else some "ws:".data) = some "ws:".data
      rw [hp]
      rfl
    · right
      rw [hfs]
      show (if truthy u.protocol then u.protocol else some "ws:".data) = some "wss:".data
      rw [hp]
      rfl
  · rw [hfs]
    show truthy u.host = true
    exact hhost
  · have hdl : d.data ≠ [] := fun hnil => hd (String.ext_iff.mpr (by simp [hnil]))
    rw [hfs]
    show truthy (if truthy u.pathname then u.pathname else some d.data) = true
    by_cases hp : truthy u.pathname
    · rw [if_pos hp]
      exact hp
    · rw [if_neg hp]
      cases hcase : d.data with
      | nil => exact absurd hcase hdl
      | cons a as => simp [truthy]

/-- Witness for C3 (amended) at `example.com` with default path `/socket`. -/
theorem parseUrl_result_shape_witness :
    (("/socket" : String) ≠ "") ∧
    (("ws://example.com/socket" : String).data =
        urlFormat (finalServerUrl "example.com".data "/socket".data) ∧
      ((finalServerUrl "example.com".data "/socket".data).protocol = some "ws:".data ∨
       (finalServerUrl "example.com".data "/socket".data).protocol = some "wss:".data) ∧
      truthy (finalServerUrl "example.com".data "/socket".data).host = true ∧
      truthy (finalServerUrl "example.com".data "/socket".data).pathname = true) :=
  ⟨by decide,
    parseUrl_result_shape "example.com" "/socket" (by decide) "ws://example.com/socket" rfl⟩

/-- C5: schemeless inputs are defaulted to the insecure scheme — a bare
input with no recognized protocol gets `ws://` prepended, a
protocol-relative `//` input gets only `ws:` prepended (the double-slash
preserved); concretely `parseUrl "example.com" "/socket"` and
`parseUrl "//example.com" "/socket"` both return `ws://example.com/socket`. -/
theorem parseUrl_default_scheme :
    (∀ l : List Char, hasUrlProtocolL l = false →
      normalizeSchemeL l = "ws://".data ++ l) ∧
    (∀ l : List Char, startsWithL "//".data l = true →
      normalizeSchemeL l = "ws:".data ++ l) ∧
    parseUrl "example.com" "/socket" = .ok "ws://example.com/socket" ∧
    parseUrl "//example.com" "/socket" = .ok "ws://example.com/socket" := by
  refine ⟨?_, ?_, rfl, rfl⟩
  · intro l h
    simp [normalizeSchemeL, h]
  · intro l h
    have h1 : hasUrlProtocolL l = true := by simp [hasUrlProtocolL, h]
    simp [normalizeSchemeL, h1, h]

/-- Witness for C5 at `example.com` and `//example.com`. -/
theorem parseUrl_default_scheme_witness :
    (hasUrlProtocolL "example.com".data = false ∧
      normalizeSchemeL "example.com".data = "ws://".data ++ "example.com".data) ∧
    (startsWithL "//".data "//example.com".data = true ∧
      normalizeSchemeL "//example.com".data = "ws:".data ++ "//example.com".data) :=
  ⟨⟨by decide, parseUrl_default_scheme.1 "example.com".data (by decide)⟩,
   ⟨by decide, parseUrl_default_scheme.2.1 "//example.com".data (by decide)⟩⟩

/-- C7: the unsupported-protocol rejection is a case-sensitive prefix
match — `parseUrl` fails with `Only ws and wss are supported` exactly for
inputs with a literal lowercase `http:` or `https:` prefix; in particular
`HTTP://example.com` is not rejected with that error. -/
theorem parseUrl_unsupported_iff :
    (∀ s d : String, parseUrl s d = .error "Only ws and wss are supported" ↔
      (startsWithL "http:".data s.data = true ∨
       startsWithL "https:".data s.data = true)) ∧
    parseUrl "HTTP://example.com" "/socket" ≠ .error "Only ws and wss are supported" := by
  have key : ∀ s d : String,
      parseUrl s d = .error "Only ws and wss are supported" ↔
      unsupportedProtocolL s.data = true := by
    intro s d
    constructor
    · intro h
      by_contra hn
      have hn' : unsupportedProtocolL s.data = false := by simpa using hn
      have hL : parseUrlL s.data d.data = .error msgOnlyWs :=
        (parseUrl_error_iff s d msgOnlyWs).mp h
      cases h2 : urlParseL (normalizeSchemeL s.data) with
      | error e =>
        rw [parseUrlL_of_uriError _ _ e hn' h2] at hL
        have he := Except.error.inj hL
        rw [urlParseL_error_msg _ _ h2] at he
        exact absurd he (by decide)
      | ok u =>
        by_cases h3 : truthy u.host
        · rw [parseUrlL_of_host _ _ u hn' h2 h3] at hL
          exact absurd hL (by simp)
        · rw [parseUrlL_of_no_host _ _ u hn' h2 (by simpa using h3)] at hL
          have := Except.error.inj hL
          exact absurd this (by decide)
    · intro h
      exact (parseUrl_error_iff s d msgOnlyWs).mpr (parseUrlL_of_unsupported _ _ h)
  constructor
  · intro s d
    rw [key s d]
    unfold unsupportedProtocolL
    simp
  · intro h
    have h2 := (key "HTTP://example.com" "/socket").mp h
    exact absurd h2 (by decide)

/-- Witness for C7: the iff applied at `https://example.com`. -/
theorem parseUrl_unsupported_iff_witness :
    parseUrl "https://example.com" "/socket" = .error "Only ws and wss are supported" :=
  (parseUrl_unsupported_iff.1 "https://example.com" "/socket").mpr (.inr (by decide))

/-! ## Character-class facts for the canonical family -/

lemma lowerHost_facts (c : Char) (h : isLowerHostChar c = true) :
    isJsSpace c = false ∧ isNonHostChar c = false ∧ (c == '@') = false ∧
    (c == ':') = false ∧ Char.toLower c = c ∧ (c == '[') = false := by
  have hm : c ∈ lowerHostChars := by simpa [isLowerHostChar] using h
  fin_cases hm <;> decide

lemma digit_facts (c : Char) (h : isDigitChar c = true) :
    Char.isDigit c = true ∧ isJsSpace c = false ∧ isNonHostChar c = false ∧
    (c == '@') = false ∧ Char.toLower c = c := by
  simp only [isDigitChar, Bool.or_eq_true, beq_iff_eq] at h
  rcases h with ((((((((rfl | rfl) | rfl) | rfl) | rfl) | rfl) | rfl) | rfl) | rfl) | rfl <;>
    decide

lemma pathSafe_facts (c : Char) (h : isPathSafeChar c = true) :
    (c == '?') = false ∧ (c == '#') = false ∧ isJsSpace c = false ∧
    isAutoEscapedChar c = false := by
  simp only [isPathSafeChar, Bool.and_eq_true, Bool.not_eq_true'] at h
  exact ⟨h.1.1.1, h.1.1.2, h.1.2, h.2⟩

lemma splitDot_ne_nil (l : List Char) : splitDot l ≠ [] := by
  cases l with
  | nil => simp [splitDot]
  | cons c cs =>
    simp only [splitDot]
    split
    · simp
    · split
      · simp
      · simp

lemma splitDot_mem_mem : ∀ (l : List Char), ∀ p ∈ splitDot l, ∀ c ∈ p, c ∈ l := by
  intro l
  induction l with
  | nil =>
    intro p hp c hc
    simp only [splitDot, List.mem_singleton] at hp
    subst hp
    exact absurd hc (List.not_mem_nil c)
  | cons c0 cs ih =>
    intro p hp c hc
    by_cases h0 : (c0 == '.') = true
    · rw [show splitDot (c0 :: cs) = [] :: splitDot cs from by
        simp only [splitDot]; rw [if_pos h0]] at hp
      rcases List.mem_cons.mp hp with rfl | hp
      · exact absurd hc (List.not_mem_nil c)
      · exact List.mem_cons_of_mem c0 (ih p hp c hc)
    · cases hsd : splitDot cs with
      | nil => exact absurd hsd (splitDot_ne_nil cs)
      | cons hpart t =>
        rw [show splitDot (c0 :: cs) = (c0 :: hpart) :: t from by
          simp only [splitDot]; rw [if_neg h0, hsd]] at hp
        rcases List.mem_cons.mp hp with rfl | hp
        · rcases List.mem_cons.mp hc with rfl | hc
          · exact List.mem_cons_self c cs
          · refine List.mem_cons_of_mem c0 (ih hpart ?_ c hc)
            rw [hsd]
            exact List.mem_cons_self hpart t
        · refine List.mem_cons_of_mem c0 (ih p ?_ c hc)
          rw [hsd]
          exact List.mem_cons_of_mem hpart hp

lemma splitDot_no_dot : ∀ (l : List Char), ∀ p ∈ splitDot l, ∀ c ∈ p,
    (c == '.') = false := by
  intro l
  induction l with
  | nil =>
    intro p hp c hc
    simp only [splitDot, List.mem_singleton] at hp
    subst hp
    exact absurd hc (List.not_mem_nil c)
  | cons c0 cs ih =>
    intro p hp c hc
    by_cases h0 : (c0 == '.') = true
    · rw [show splitDot (c0 :: cs) = [] :: splitDot cs from by
        simp only [splitDot]; rw [if_pos h0]] at hp
      rcases List.mem_cons.mp hp with rfl | hp
      · exact absurd hc (List.not_mem_nil c)
      · exact ih p hp c hc
    · cases hsd : splitDot cs with
      | nil => exact absurd hsd (splitDot_ne_nil cs)
      | cons hpart t =>
        rw [show splitDot (c0 :: cs) = (c0 :: hpart) :: t from by
          simp only [splitDot]; rw [if_neg h0, hsd]] at hp
        rcases List.mem_cons.mp hp with rfl | hp
        · rcases List.mem_cons.mp hc with rfl | hc
          · simpa using h0
          · refine ih hpart ?_ c hc
            rw [hsd]
            exact List.mem_cons_self hpart t
        · refine ih p ?_ c hc
          rw [hsd]
          exact List.mem_cons_of_mem hpart hp

lemma lowerHost_hostPart (c : Char) (h : isLowerHostChar c = true)
    (hd : (c == '.') = false) : isHostPartChar c = true := by
  have hm : c ∈ lowerHostChars := by simpa [isLowerHostChar] using h
  fin_cases hm <;> revert hd <;> decide

lemma validateParts_ok (parts : List (List Char))
    (h : ∀ p ∈ parts, hostPartOk p = true) : validateParts parts = none := by
  induction parts with
  | nil => rfl
  | cons part ps ih =>
    unfold validateParts
    rw [if_pos (h part (List.mem_cons_self part ps))]
    rw [ih fun p hp => h p (List.mem_cons_of_mem part hp)]

lemma validateHostname_canonical (hn rest : List Char)
    (hchars : ∀ c ∈ hn, isLowerHostChar c = true)
    (h63 : ∀ part ∈ splitDot hn, part.length ≤ 63) :
    validateHostname hn rest = (hn, rest) := by
  have hok : ∀ p ∈ splitDot hn, hostPartOk p = true := by
    intro p hp
    unfold hostPartOk
    rw [Bool.and_eq_true]
    refine ⟨decide_eq_true (h63 p hp), ?_⟩
    rw [List.all_eq_true]
    intro c hc
    have h1 := hchars c (splitDot_mem_mem hn p hp c hc)
    have h2 := splitDot_no_dot hn p hp c hc
    have h3 := lowerHost_hostPart c h1 h2
    simp [h3]
  unfold validateHostname
  rw [validateParts_ok _ hok]

lemma autoEscapeChar_eq_self (c : Char) (h : isAutoEscapedChar c = false) :
    autoEscapeChar c = [c] := by
  simp only [isAutoEscapedChar, Bool.or_eq_false_iff] at h
  obtain ⟨⟨⟨⟨⟨⟨⟨⟨⟨⟨⟨⟨⟨h1, h2⟩, h3⟩, h4⟩, h5⟩, h6⟩, h7⟩, h8⟩, h9⟩, h10⟩, h11⟩,
    h12⟩, h13⟩, h14⟩ := h
  unfold autoEscapeChar
  simp only [h1, h2, h3, h4, h5, h6, h7, h8, h9, h10, h11, h12, h13, h14,
    Bool.false_eq_true, if_false]

lemma autoEscapeStr_eq_self (l : List Char)
    (h : ∀ c ∈ l, isAutoEscapedChar c = false) : autoEscapeStr l = l := by
  induction l with
  | nil => rfl
  | cons c cs ih =>
    have h1 := autoEscapeChar_eq_self c (h c (List.mem_cons_self c cs))
    have ih2 := ih fun x hx => h x (List.mem_cons_of_mem c hx)
    show (List.map autoEscapeChar (c :: cs)).flatten = c :: cs
    rw [List.map_cons, List.flatten_cons, h1]
    rw [show (List.map autoEscapeChar cs).flatten = cs from ih2]
    rfl

lemma isHostEnding_imp_nonHost (c : Char) (h : isHostEnding c = true) :
    isNonHostChar c = true := by
  simp only [isHostEnding, Bool.or_eq_true, beq_iff_eq] at h
  rcases h with (rfl | rfl) | rfl <;> decide

/-! ## Stage lemmas for canonical inputs -/

lemma authHostSplit_canonical (host rest : List Char)
    (hh : ∀ c ∈ host, isNonHostChar c = false)
    (hat : ∀ c ∈ host, (c == '@') = false)
    (hr : rest = [] ∨ ∃ t, rest = '/' :: t) :
    authHostSplit (host ++ rest) = (none, host ++ rest) := by
  have hhe : ∀ c ∈ host, (!isHostEnding c) = true := by
    intro c hc
    have h2 : isHostEnding c = false := by
      cases h3 : isHostEnding c with
      | false => rfl
      | true => exact absurd (isHostEnding_imp_nonHost c h3) (by simp [hh c hc])
    simp [h2]
  unfold authHostSplit
  dsimp only
  rcases hr with rfl | ⟨t, rfl⟩
  · rw [List.append_nil, dropWhile_eq_nil_of_all _ _ hhe]
    simp only [List.isEmpty_nil, if_true]
    rw [lastIndexOfAt_eq_none _ hat]
  · rw [takeWhile_append_all _ _ _ hhe, dropWhile_append_all _ _ _ hhe]
    have hdw : List.dropWhile (fun c => !isHostEnding c) ('/' :: t) = '/' :: t := by
      simp [List.dropWhile_cons, show isHostEnding '/' = true from by decide]
    have htw : List.takeWhile (fun c => !isHostEnding c) ('/' :: t) = [] := by
      simp [List.takeWhile_cons, show isHostEnding '/' = true from by decide]
    rw [hdw, htw]
    simp only [List.isEmpty_cons, if_false, Bool.false_eq_true, List.append_nil]
    rw [lastIndexOfAt_eq_none _ hat]

lemma takeHost_canonical (host rest : List Char)
    (hh : ∀ c ∈ host, isNonHostChar c = false)
    (hr : rest = [] ∨ ∃ c t, rest = c :: t ∧ isNonHostChar c = true) :
    takeHost (host ++ rest) = (host, rest) := by
  have hh' : ∀ c ∈ host, (!isNonHostChar c) = true := fun c hc => by simp [hh c hc]
  unfold takeHost
  rw [takeWhile_append_all _ _ _ hh', dropWhile_append_all _ _ _ hh']
  rcases hr with rfl | ⟨c, t, rfl, hc⟩
  · simp
  · rw [List.takeWhile_cons, List.dropWhile_cons]
    simp [hc]

lemma parseHostPort_canonical (hn : List Char) (port : Option (List Char))
    (hhn : ∀ c ∈ hn, (c == ':') = false)
    (hport : match port with
      | some p => p ≠ [] ∧ ∀ c ∈ p, Char.isDigit c = true
      | none => True) :
    parseHostPort (hn ++ portSuffix port) = (hn, port) := by
  cases port with
  | none =>
    simp only [portSuffix, List.append_nil]
    unfold parseHostPort
    dsimp only
    cases hd : hn.reverse.dropWhile Char.isDigit with
    | nil => rfl
    | cons c t =>
      have hc : c ∈ hn := by
        have hm : c ∈ hn.reverse.dropWhile Char.isDigit := by
          rw [hd]; exact List.mem_cons_self _ _
        exact List.mem_reverse.mp ((List.dropWhile_sublist _).subset hm)
      split
      · rename_i before heq
        simp only [List.cons.injEq] at heq
        exact absurd heq.1 (by simpa using hhn c hc)
      · rfl
  | some p =>
    obtain ⟨hp1, hp2⟩ := hport
    simp only [portSuffix]
    unfold parseHostPort
    dsimp only
    have hrev : (hn ++ ':' :: p).reverse = p.reverse ++ ':' :: hn.reverse := by
      rw [List.reverse_append, List.reverse_cons]
      simp
    have hpd : ∀ c ∈ p.reverse, Char.isDigit c = true :=
      fun c hc => hp2 c (List.mem_reverse.mp hc)
    have htw : (hn ++ ':' :: p).reverse.takeWhile Char.isDigit = p.reverse := by
      rw [hrev, takeWhile_append_all _ _ _ hpd, List.takeWhile_cons]
      simp
    have hdw : (hn ++ ':' :: p).reverse.dropWhile Char.isDigit = ':' :: hn.reverse := by
      rw [hrev, dropWhile_append_all _ _ _ hpd, List.dropWhile_cons]
      simp
    rw [htw, hdw]
    have hne : p.reverse.isEmpty = false := by
      cases hp : p.reverse with
      | nil => exact absurd (by simpa using hp) hp1
      | cons a as => rfl
    simp [hne]

lemma finishTail_clean (proto : Option (List Char)) (slashes : Bool)
    (auth host hostname port : Option (List Char)) (path : List Char)
    (hp : ∀ c ∈ path, (c == '#') = false ∧ (c == '?') = false)
    (hproto : (match proto with | some p => isSlashedProtocol p | none => false) = false) :
    finishTail proto slashes auth host hostname port path =
    { protocol := proto, slashes := slashes, auth := auth, host := host,
      hostname := hostname, port := port,
      pathname := if path.isEmpty then none else some path,
      search := none, hash := none } := by
  have hh : ∀ c ∈ path, (c != '#') = true := fun c hc => by
    simp [bne, (hp c hc).1]
  have hq : ∀ c ∈ path, (c != '?') = true := fun c hc => by
    simp [bne, (hp c hc).2]
  unfold finishTail
  dsimp only
  rw [takeWhile_eq_self_of_all _ _ hh, dropWhile_eq_nil_of_all _ _ hh,
    takeWhile_eq_self_of_all _ _ hq, dropWhile_eq_nil_of_all _ _ hq]
  simp [hproto]

lemma map_toLower_eq_self (l : List Char) (h : ∀ c ∈ l, Char.toLower c = c) :
    l.map Char.toLower = l := by
  induction l with
  | nil => rfl
  | cons c cs ih =>
    simp [h c (by simp), ih fun x hx => h x (by simp [hx])]

lemma urlParseL_wsLike (secure : Bool) (X : List Char)
    (hsp : ∀ c ∈ X, isJsSpace c = false) :
    urlParseL ((if secure then "wss:".data else "ws:".data) ++ '/' :: '/' :: X) =
    (match decodeAuth (authHostSplit X).1 with
     | none => .error msgUriMalformed
     | some auth =>
       let th := takeHost (authHostSplit X).2
       let hp := parseHostPort th.1
       let hn0 := hp.1
       let port := hp.2
       let ipv6 := hn0.head? == some '[' && hn0.getLast? == some ']'
       let vh := if ipv6 then (hn0, th.2) else validateHostname hn0 th.2
       let hnV := vh.1
       let rest3v := vh.2
       let hn1 := if 255 < hnV.length then [] else hnV.map Char.toLower
       let hostOut := hn1 ++ portSuffix port
       let hn2 := if ipv6 then (hn1.drop 1).dropLast else hn1
       let rest4 := if ipv6 && !startsWithL ['/'] rest3v then '/' :: rest3v else rest3v
       .ok (finishTail (some (if secure then "wss:".data else "ws:".data)) true auth
         (some hostOut) (some hn2) port (autoEscapeStr rest4))) := by
  cases secure
  · have hall : ∀ c ∈ 'w' :: 's' :: ':' :: '/' :: '/' :: X, isJsSpace c = false := by
      intro c hc
      simp only [List.mem_cons] at hc
      rcases hc with rfl | rfl | rfl | rfl | rfl | hc
      · decide
      · decide
      · decide
      · decide
      · decide
      · exact hsp c hc
    simp only [if_false, Bool.false_eq_true]
    rw [wsData_chars]
    simp only [urlParseL]
    rw [jsTrim_eq_self _ hall, protoSplit_ws]
    dsimp only
    simp [show startsWithL ['/', '/'] ('/' :: '/' :: X) = true from by simp [startsWithL],
      show isHostlessProtocol "ws:".data = false from by decide,
      show isSlashedProtocol "ws:".data = false from by decide,
      show isUnsafeProtocol "ws:".data = false from by decide,
      portSuffix]
  · have hall : ∀ c ∈ 'w' :: 's' :: 's' :: ':' :: '/' :: '/' :: X, isJsSpace c = false := by
      intro c hc
      simp only [List.mem_cons] at hc
      rcases hc with rfl | rfl | rfl | rfl | rfl | rfl | hc
      · decide
      · decide
      · decide
      · decide
      · decide
      · decide
      · exact hsp c hc
    simp only [if_true]
    rw [wssData_chars]
    simp only [urlParseL]
    rw [jsTrim_eq_self _ hall, protoSplit_wss]
    dsimp only
    simp [show startsWithL ['/', '/'] ('/' :: '/' :: X) = true from by simp [startsWithL],
      show isHostlessProtocol "wss:".data = false from by decide,
      show isSlashedProtocol "wss:".data = false from by decide,
      show isUnsafeProtocol "wss:".data = false from by decide,
      portSuffix]

lemma urlParseL_canonical (secure : Bool) (hn : List Char) (port : Option (List Char))
    (path : List Char) (h : CanonicalParts hn port path) :
    urlParseL (mkCanonicalUrl secure hn port path) =
    .ok { protocol := some (if secure then "wss:".data else "ws:".data),
          slashes := true, auth := none,
          host := some (hn ++ portSuffix port), hostname := some hn, port := port,
          pathname := if path.isEmpty then none else some path,
          search := none, hash := none } := by
  obtain ⟨h1, h2, h255, h63, h3, h4, h5⟩ := h
  have hHFnh : ∀ c ∈ hn ++ portSuffix port, isNonHostChar c = false := by
    intro c hc
    rcases List.mem_append.mp hc with hc | hc
    · exact (lowerHost_facts c (h2 c hc)).2.1
    · cases port with
      | none => simp [portSuffix] at hc
      | some p =>
        simp only [portSuffix, List.mem_cons] at hc
        rcases hc with rfl | hc
        · decide
        · exact (digit_facts c (h3.2 c hc)).2.2.1
  have hHFat : ∀ c ∈ hn ++ portSuffix port, (c == '@') = false := by
    intro c hc
    rcases List.mem_append.mp hc with hc | hc
    · exact (lowerHost_facts c (h2 c hc)).2.2.1
    · cases port with
      | none => simp [portSuffix] at hc
      | some p =>
        simp only [portSuffix, List.mem_cons] at hc
        rcases hc with rfl | hc
        · decide
        · exact (digit_facts c (h3.2 c hc)).2.2.2.1
  have hHFsp : ∀ c ∈ hn ++ portSuffix port, isJsSpace c = false := by
    intro c hc
    rcases List.mem_append.mp hc with hc | hc
    · exact (lowerHost_facts c (h2 c hc)).1
    · cases port with
      | none => simp [portSuffix] at hc
      | some p =>
        simp only [portSuffix, List.mem_cons] at hc
        rcases hc with rfl | hc
        · decide
        · exact (digit_facts c (h3.2 c hc)).2.1
  have hPsp : ∀ c ∈ path, isJsSpace c = false := fun c hc =>
    (pathSafe_facts c (h5 c hc)).2.2.1
  have hXsp : ∀ c ∈ hn ++ (portSuffix port ++ path), isJsSpace c = false := by
    intro c hc
    rcases List.mem_append.mp hc with hc | hc
    · exact hHFsp c (List.mem_append.mpr (.inl hc))
    · rcases List.mem_append.mp hc with hc | hc
      · exact hHFsp c (List.mem_append.mpr (.inr hc))
      · exact hPsp c hc
  have hpathShape : path = [] ∨ ∃ t, path = '/' :: t := by
    rcases h4 with h4 | h4
    · exact .inl h4
    · cases path with
      | nil => exact .inl rfl
      | cons c t =>
        refine .inr ⟨t, ?_⟩
        have : c = '/' := by simpa using h4
        rw [this]
  have hform : mkCanonicalUrl secure hn port path =
      (if secure then "wss:".data else "ws:".data) ++
        '/' :: '/' :: (hn ++ (portSuffix port ++ path)) := by
    cases secure <;> simp [mkCanonicalUrl]
  rw [hform, urlParseL_wsLike secure _ hXsp]
  have hassoc : hn ++ (portSuffix port ++ path) = (hn ++ portSuffix port) ++ path :=
    (List.append_assoc _ _ _).symm
  have e1 : authHostSplit (hn ++ (portSuffix port ++ path)) =
      (none, (hn ++ portSuffix port) ++ path) := by
    rw [hassoc]
    exact authHostSplit_canonical _ _ hHFnh hHFat hpathShape
  have e2 : takeHost ((hn ++ portSuffix port) ++ path) = (hn ++ portSuffix port, path) := by
    refine takeHost_canonical _ _ hHFnh ?_
    rcases hpathShape with rfl | ⟨t, rfl⟩
    · exact .inl rfl
    · exact .inr ⟨'/', t, rfl, by decide⟩
  have e3 : parseHostPort (hn ++ portSuffix port) = (hn, port) := by
    refine parseHostPort_canonical hn port (fun c hc => (lowerHost_facts c (h2 c hc)).2.2.2.1) ?_
    cases port with
    | none => trivial
    | some p => exact ⟨h3.1, fun c hc => (digit_facts c (h3.2 c hc)).1⟩
  have e4 : hn.map Char.toLower = hn :=
    map_toLower_eq_self hn fun c hc => (lowerHost_facts c (h2 c hc)).2.2.2.2.1
  have e5 : (hn.head? == some '[') = false := by
    cases hn with
    | nil => exact absurd rfl h1
    | cons c t =>
      have := (lowerHost_facts c (h2 c (by simp))).2.2.2.2.2
      simpa using this
  have e6 : finishTail (some (if secure then "wss:".data else "ws:".data)) true none
      (some (hn ++ portSuffix port)) (some hn) port path =
      { protocol := some (if secure then "wss:".data else "ws:".data),
        slashes := true, auth := none,
        host := some (hn ++ portSuffix port), hostname := some hn, port := port,
        pathname := if path.isEmpty then none else some path,
        search := none, hash := none } := by
    refine finishTail_clean _ _ _ _ _ _ _ (fun c hc => ?_) ?_
    · exact ⟨(pathSafe_facts c (h5 c hc)).2.1, (pathSafe_facts c (h5 c hc)).1⟩
    · cases secure <;> decide
  have e_v : validateHostname hn path = (hn, path) :=
    validateHostname_canonical hn path h2 h63
  have e_cap : (if 255 < hn.length then ([] : List Char) else hn.map Char.toLower) = hn := by
    rw [if_neg (by omega), e4]
  have e_ae : autoEscapeStr path = path :=
    autoEscapeStr_eq_self path fun c hc => (pathSafe_facts c (h5 c hc)).2.2.2
  simp only [e1, decodeAuth, e2, e3, e_v, e5, Bool.false_and, Bool.and_eq_true, if_false,
    Bool.false_eq_true, e_cap, e_ae]
  exact congrArg Except.ok e6

lemma escapePathChars_eq_self (l : List Char)
    (h : ∀ c ∈ l, (c == '?') = false ∧ (c == '#') = false) :
    escapePathChars l = l := by
  induction l with
  | nil => rfl
  | cons c cs ih =>
    have h1 := (h c (by simp)).1
    have h2 := (h c (by simp)).2
    have ih2 := ih fun x hx => h x (by simp [hx])
    have step : escapePathChars (c :: cs) =
        (if c == '?' then '%' :: '3' :: 'F' :: []
         else if c == '#' then '%' :: '2' :: '3' :: [] else [c]) ++
          escapePathChars cs := rfl
    rw [step, h1, h2, ih2]
    simp

lemma urlFormat_canonical (secure : Bool) (hn : List Char) (port : Option (List Char))
    (pathname : List Char)
    (hhost : (hn ++ portSuffix port).isEmpty = false)
    (hpath : pathname.head? = some '/')
    (hsafe : ∀ c ∈ pathname, (c == '?') = false ∧ (c == '#') = false) :
    urlFormat
      { protocol := some (if secure then "wss:".data else "ws:".data),
        slashes := true, auth := none, host := some (hn ++ portSuffix port),
        hostname := some hn, port := port, pathname := some pathname,
        search := none, hash := none } =
    (if secure then "wss:".data else "ws:".data) ++ '/' :: '/' ::
      ((hn ++ portSuffix port) ++ pathname) := by
  have hesc := escapePathChars_eq_self pathname hsafe
  cases secure <;>
    simp [urlFormat, truthy, hhost, hpath, hesc, replaceFirstHash, List.append_assoc]

lemma normalizeSchemeL_ws_fixed (t : List Char) :
    normalizeSchemeL ("ws:".data ++ t) = "ws:".data ++ t := by
  have h1 : hasUrlProtocolL ('w' :: 's' :: ':' :: t) = true := by
    have h0 := startsWithL_self_append "ws:".data t
    rw [wsData_chars] at h0
    unfold hasUrlProtocolL
    rw [h0]
    simp
  have h2 : startsWithL ['/', '/'] ('w' :: 's' :: ':' :: t) = false := by
    simp [startsWithL, show (('/' : Char) == 'w') = false from by decide]
  rw [wsData_chars]
  simp [normalizeSchemeL, h1, h2]

lemma normalizeSchemeL_wss_fixed (t : List Char) :
    normalizeSchemeL ("wss:".data ++ t) = "wss:".data ++ t := by
  have h1 : hasUrlProtocolL ('w' :: 's' :: 's' :: ':' :: t) = true := by
    have h0 := startsWithL_self_append "wss:".data t
    rw [wssData_chars] at h0
    unfold hasUrlProtocolL
    rw [h0]
    simp
  have h2 : startsWithL ['/', '/'] ('w' :: 's' :: 's' :: ':' :: t) = false := by
    simp [startsWithL, show (('/' : Char) == 'w') = false from by decide]
  rw [wssData_chars]
  simp [normalizeSchemeL, h1, h2]

lemma unsupportedProtocolL_wlike (t : List Char) :
    unsupportedProtocolL ('w' :: t) = false := by
  unfold unsupportedProtocolL
  simp [startsWithL, show (('h' : Char) == 'w') = false from by decide]

lemma finalServerUrl_defaultPath (s d : List Char) (u : UrlParts)
    (hu : urlParseL (normalizeSchemeL s) = .ok u)
    (hp : truthy u.protocol = true) (hpn : truthy u.pathname = false) :
    finalServerUrl s d = { u with pathname := some d } := by
  unfold finalServerUrl
  rw [hu]
  simp [hp, hpn]

lemma urlParseL_canonical_noPath (secure : Bool) (hn : List Char)
    (port : Option (List Char)) (h : CanonicalParts hn port []) :
    urlParseL (mkCanonicalUrl secure hn port []) =
    .ok { protocol := some (if secure then "wss:".data else "ws:".data),
          slashes := true, auth := none,
          host := some (hn ++ portSuffix port), hostname := some hn, port := port,
          pathname := none, search := none, hash := none } := by
  rw [urlParseL_canonical secure hn port [] h]
  simp

lemma mkCanonical_norm_fixed (secure : Bool) (hn : List Char)
    (port : Option (List Char)) (path : List Char) :
    normalizeSchemeL (mkCanonicalUrl secure hn port path) =
      mkCanonicalUrl secure hn port path := by
  have hform : mkCanonicalUrl secure hn port path =
      (if secure then "wss:".data else "ws:".data) ++
        '/' :: '/' :: (hn ++ (portSuffix port ++ path)) := by
    cases secure <;> simp [mkCanonicalUrl]
  rw [hform]
  cases secure
  · rw [show (if (false : Bool) = true then "wss:".data else "ws:".data) = "ws:".data from rfl]
    exact normalizeSchemeL_ws_fixed _
  · rw [show (if (true : Bool) = true then "wss:".data else "ws:".data) = "wss:".data from rfl]
    exact normalizeSchemeL_wss_fixed _

lemma mkCanonical_not_unsupported (secure : Bool) (hn : List Char)
    (port : Option (List Char)) (path : List Char) :
    unsupportedProtocolL (mkCanonicalUrl secure hn port path) = false := by
  have hform : mkCanonicalUrl secure hn port path =
      (if secure then "wss:".data else "ws:".data) ++
        '/' :: '/' :: (hn ++ (portSuffix port ++ path)) := by
    cases secure <;> simp [mkCanonicalUrl]
  rw [hform]
  cases secure
  · rw [show (if (false : Bool) = true then "wss:".data else "ws:".data) = "ws:".data from rfl,
      wsData_chars]
    exact unsupportedProtocolL_wlike _
  · rw [show (if (true : Bool) = true then "wss:".data else "ws:".data) = "wss:".data from rfl,
      wssData_chars]
    exact unsupportedProtocolL_wlike _

/-- C6: with a supported secure scheme and a host (with port) but no path,
the path is defaulted to the supplied default path and the scheme and host
are preserved; in particular `parseUrl "wss://example.com:9000" "/socket"`
returns `wss://example.com:9000/socket`. -/
theorem parseUrl_default_path (s d : String) (hn : List Char)
    (port : Option (List Char))
    (hs : s.data = mkCanonicalUrl true hn port [])
    (hc : CanonicalParts hn port [])
    (hd1 : d.data.head? = some '/')
    (hd2 : ∀ c ∈ d.data, isPathSafeChar c = true) :
    parseUrl s d = .ok ⟨s.data ++ d.data⟩ := by
  have hnorm := mkCanonical_norm_fixed true hn port []
  have hns := mkCanonical_not_unsupported true hn port []
  have hparse := urlParseL_canonical_noPath true hn port hc
  have hhostne : (hn ++ portSuffix port).isEmpty = false := by
    cases hh : hn ++ portSuffix port with
    | nil => exact absurd (List.append_eq_nil.mp hh).1 hc.1
    | cons a as => rfl
  have hu : urlParseL (normalizeSchemeL (mkCanonicalUrl true hn port [])) =
      .ok { protocol := some (if true then "wss:".data else "ws:".data),
            slashes := true, auth := none, host := some (hn ++ portSuffix port),
            hostname := some hn, port := port, pathname := none,
            search := none, hash := none } := by
    rw [hnorm]
    exact hparse
  have htruthy : truthy (some (hn ++ portSuffix port)) = true := by
    simp [truthy, hhostne]
  have hrec : finalServerUrl (mkCanonicalUrl true hn port []) d.data =
      { protocol := some (if true then "wss:".data else "ws:".data),
        slashes := true, auth := none, host := some (hn ++ portSuffix port),
        hostname := some hn, port := port, pathname := some d.data,
        search := none, hash := none } := by
    refine finalServerUrl_defaultPath _ _ _ hu ?_ ?_
    · rfl
    · rfl
  rw [parseUrl_ok_iff, hs]
  refine (parseUrlL_of_host _ _ _ hns hu htruthy).trans ?_
  refine congrArg Except.ok ?_
  rw [hrec, urlFormat_canonical true hn port d.data hhostne hd1
    (fun c hcm => ⟨(pathSafe_facts c (hd2 c hcm)).1, (pathSafe_facts c (hd2 c hcm)).2.1⟩)]
  have hform : mkCanonicalUrl true hn port [] =
      (if true then "wss:".data else "ws:".data) ++
        '/' :: '/' :: (hn ++ (portSuffix port ++ [])) := by
    simp [mkCanonicalUrl]
  rw [hform]
  simp [List.append_assoc]

/-- Witness for C6 at `wss://example.com:9000` with default path `/socket`. -/
theorem parseUrl_default_path_witness :
    ("wss://example.com:9000" : String).data =
      mkCanonicalUrl true "example.com".data (some "9000".data) [] ∧
    CanonicalParts "example.com".data (some "9000".data) [] ∧
    ("/socket" : String).data.head? = some '/' ∧
    parseUrl "wss://example.com:9000" "/socket" = .ok "wss://example.com:9000/socket" :=
  ⟨by decide,
    ⟨by decide, by decide, by decide, by decide, ⟨by decide, by decide⟩, by decide, by decide⟩,
    by decide,
    parseUrl_default_path "wss://example.com:9000" "/socket"
      "example.com".data (some "9000".data) (by decide)
      ⟨by decide, by decide, by decide, by decide, ⟨by decide, by decide⟩, by decide, by decide⟩
      (by decide) (by decide)⟩

/-! ## Claim theorems: timer wrappers -/

/-- C8: the `setTimeout` wrapper returns the sentinel `-1` for a `null`
duration without invoking any timer, and for every non-`null` duration it
calls itself recursively instead of the platform timer, so the call never
terminates (no fuel bound suffices); the `setInterval` wrapper behaves
identically. -/
theorem timer_wrappers_behavior :
    (∀ (α : Type) (cb : α) (fuel : Nat), 0 < fuel →
      setTimeoutFuel cb fuel none = some (-1)) ∧
    (∀ (α : Type) (cb : α) (fuel : Nat) (d : Int),
      setTimeoutFuel cb fuel (some d) = none) ∧
    (∀ (α : Type) (cb : α) (fuel : Nat), 0 < fuel →
      setIntervalFuel cb fuel none = some (-1)) ∧
    (∀ (α : Type) (cb : α) (fuel : Nat) (d : Int),
      setIntervalFuel cb fuel (some d) = none) := by
  refine ⟨?_, ?_, ?_, ?_⟩
  · intro α cb fuel h
    cases fuel with
    | zero => exact absurd h (by simp)
    | succ f => simp [setTimeoutFuel]
  · intro α cb fuel d
    induction fuel with
    | zero => rfl
    | succ f ih => simp [setTimeoutFuel, ih]
  · intro α cb fuel h
    cases fuel with
    | zero => exact absurd h (by simp)
    | succ f => simp [setIntervalFuel]
  · intro α cb fuel d
    induction fuel with
    | zero => rfl
    | succ f ih => simp [setIntervalFuel, ih]

/-- Witness for C8 at concrete fuels and durations. -/
theorem timer_wrappers_behavior_witness :
    setTimeoutFuel () 1 none = some (-1) ∧ setTimeoutFuel () 5 (some 100) = none ∧
    setIntervalFuel () 1 none = some (-1) ∧ setIntervalFuel () 5 (some 100) = none :=
  ⟨timer_wrappers_behavior.1 Unit () 1 (by decide),
   timer_wrappers_behavior.2.1 Unit () 5 100,
   timer_wrappers_behavior.2.2.1 Unit () 1 (by decide),
   timer_wrappers_behavior.2.2.2 Unit () 5 100⟩

/-! ## Lemmas for `shallowCopy` -/

lemma map_congr_mem {α β : Type} (l : List α) (f g : α → β)
    (h : ∀ a ∈ l, f a = g a) : l.map f = l.map g := by
  induction l with
  | nil => rfl
  | cons a as ih =>
    simp [h a (by simp), ih fun x hx => h x (by simp [hx])]

lemma objGet_cons_ne (k0 : List Char) (v0 : JSValue)
    (rest : List (List Char × JSValue)) (k : List Char) (h : k0 ≠ k) :
    objGet ((k0, v0) :: rest) k = objGet rest k := by
  unfold objGet
  rw [List.find?_cons]
  rw [show ((k0, v0).1 == k) = false from by simp [h]]

lemma rebuild_pairs (ms : List (List Char × JSValue))
    (h : (ms.map Prod.fst).Nodup) :
    (ms.map Prod.fst).map (fun k => (k, objGet ms k)) = ms := by
  induction ms with
  | nil => rfl
  | cons kv rest ih =>
    obtain ⟨k0, v0⟩ := kv
    simp only [List.map_cons] at h ⊢
    have hnotin : k0 ∉ rest.map Prod.fst := (List.nodup_cons.mp h).1
    have hnd : (rest.map Prod.fst).Nodup := (List.nodup_cons.mp h).2
    have hhead : objGet ((k0, v0) :: rest) k0 = v0 := by
      unfold objGet
      rw [List.find?_cons]
      simp
    rw [hhead]
    have hstep : (rest.map Prod.fst).map (fun k => (k, objGet ((k0, v0) :: rest) k)) =
        (rest.map Prod.fst).map (fun k => (k, objGet rest k)) := by
      refine map_congr_mem _ _ _ fun k hk => ?_
      have hne : k0 ≠ k := fun he => hnotin (he ▸ hk)
      rw [objGet_cons_ne _ _ _ _ hne]
    rw [hstep, ih hnd]

lemma objAssign_fresh (acc : List (List Char × JSValue)) (k : List Char) (v : JSValue)
    (h : ∀ kv ∈ acc, kv.1 ≠ k) :
    objAssign acc k v = acc ++ [(k, v)] := by
  unfold objAssign
  have : acc.any (fun kv => kv.1 == k) = false := by
    rw [List.any_eq_false]
    intro kv hkv
    simp [h kv hkv]
  rw [this]
  simp

lemma rebuild_fold (full : List (List Char × JSValue)) :
    ∀ (ks : List (List Char)) (acc : List (List Char × JSValue)), ks.Nodup →
    (∀ k ∈ ks, ∀ kv ∈ acc, kv.1 ≠ k) →
    ks.foldl (fun c k => objAssign c k (objGet full k)) acc =
      acc ++ ks.map (fun k => (k, objGet full k)) := by
  intro ks
  induction ks with
  | nil =>
    intro acc _ _
    simp
  | cons k ks ih =>
    intro acc hnd hfresh
    simp only [List.foldl_cons, List.map_cons]
    rw [objAssign_fresh acc k _ (hfresh k (by simp))]
    have hfresh2 : ∀ k2 ∈ ks, ∀ kv ∈ acc ++ [(k, objGet full k)], kv.1 ≠ k2 := by
      intro k2 hk2 kv hkv
      rcases List.mem_append.mp hkv with hkv | hkv
      · exact hfresh k2 (by simp [hk2]) kv hkv
      · simp only [List.mem_singleton] at hkv
        rw [hkv]
        intro he
        exact (List.nodup_cons.mp hnd).1
          (show k ∈ ks from by rw [show k = k2 from he]; exact hk2)
    rw [ih (acc ++ [(k, objGet full k)]) (List.nodup_cons.mp hnd).2 hfresh2]
    simp

/-! ## Claim theorems: `shallowCopy` -/

/-- C10: `shallowCopy` preserves top-level contents — an array input
yields an array with the same elements in the same order, a non-array
object yields an object whose own keys are exactly those of the input
bound to the identical values, and a non-object input is returned
unchanged. -/
theorem shallowCopy_top_level :
    (∀ l : List JSValue, shallowCopy (.arr l) = some (.arr l)) ∧
    (∀ ms : List (List Char × JSValue), (ms.map Prod.fst).Nodup →
      shallowCopy (.obj ms) = some (.obj ms)) ∧
    (∀ v : JSValue, typeofJS v ≠ "object" → shallowCopy v = some v) := by
  refine ⟨?_, ?_, ?_⟩
  · intro l
    simp [shallowCopy]
  · intro ms hnd
    have hke : objKeys ms = ms.map Prod.fst := by
      unfold objKeys
      exact List.dedup_eq_self.mpr hnd
    simp only [shallowCopy, hke]
    rw [rebuild_fold ms (ms.map Prod.fst) [] hnd
        (fun k _ kv hkv => absurd hkv (List.not_mem_nil kv)),
      List.nil_append, rebuild_pairs ms hnd]
  · intro v hv
    cases v with
    | null => exact absurd rfl hv
    | bool b => rfl
    | num n => rfl
    | str s => rfl
    | arr l => exact absurd rfl hv
    | obj ms => exact absurd rfl hv

/-- Witness for C10 on a concrete array, object and primitive. -/
theorem shallowCopy_top_level_witness :
    shallowCopy (.arr [.num 1, .null]) = some (.arr [.num 1, .null]) ∧
    (([("a".data, JSValue.num 1), ("b".data, JSValue.bool true)].map Prod.fst).Nodup ∧
      shallowCopy (.obj [("a".data, .num 1), ("b".data, .bool true)]) =
        some (.obj [("a".data, .num 1), ("b".data, .bool true)])) ∧
    (typeofJS (.num 5) ≠ "object" ∧ shallowCopy (.num 5) = some (.num 5)) :=
  ⟨shallowCopy_top_level.1 _,
   ⟨by decide, shallowCopy_top_level.2.1 _ (by decide)⟩,
   ⟨by decide, shallowCopy_top_level.2.2 _ (by decide)⟩⟩

/-! ## Nested induction principle for JS values -/

lemma jsval_ind (P : JSValue → Prop) (hnull : P .null) (hbool : ∀ b, P (.bool b))
    (hnum : ∀ n, P (.num n)) (hstr : ∀ s, P (.str s))
    (harr : ∀ vs, (∀ v ∈ vs, P v) → P (.arr vs))
    (hobj : ∀ ms, (∀ kv ∈ ms, P kv.2) → P (.obj ms)) : ∀ v, P v := by
  have key : ∀ n v, sizeOf v ≤ n → P v := by
    intro n
    induction n using Nat.strong_induction_on with
    | _ n ih =>
      intro v hv
      cases v with
      | null => exact hnull
      | bool b => exact hbool b
      | num m => exact hnum m
      | str s => exact hstr s
      | arr vs =>
        refine harr vs fun x hx => ?_
        have h1 : sizeOf x < sizeOf vs := List.sizeOf_lt_of_mem hx
        have h2 : sizeOf (JSValue.arr vs) = 1 + sizeOf vs := by simp
        exact ih (sizeOf x) (by omega) x le_rfl
      | obj ms =>
        refine hobj ms fun kv hkv => ?_
        have h1 : sizeOf kv < sizeOf ms := List.sizeOf_lt_of_mem hkv
        have h2 : sizeOf (JSValue.obj ms) = 1 + sizeOf ms := by simp
        have h3 : sizeOf kv.2 < sizeOf kv := by
          obtain ⟨k, v2⟩ := kv
          simp
        exact ih (sizeOf kv.2) (by omega) kv.2 le_rfl
  exact fun v => key (sizeOf v) v le_rfl

lemma jsvBeq_refl : ∀ v : JSValue, jsvBeq v v = true := by
  refine jsval_ind _ rfl (fun b => ?_) (fun n => ?_) (fun s => ?_) (fun vs ih => ?_)
    (fun ms ih => ?_)
  · simp [jsvBeq]
  · simp [jsvBeq]
  · simp [jsvBeq]
  · show jsvBeqList vs vs = true
    induction vs with
    | nil => rfl
    | cons v rest ihl =>
      simp only [jsvBeqList, Bool.and_eq_true]
      exact ⟨ih v (by simp), ihl fun x hx => ih x (by simp [hx])⟩
  · show jsvBeqMembers ms ms = true
    induction ms with
    | nil => rfl
    | cons kv rest ihl =>
      obtain ⟨k, v⟩ := kv
      simp only [jsvBeqMembers, Bool.and_eq_true]
      exact ⟨⟨by simp, ih (k, v) (by simp)⟩, ihl fun x hx => ih x (by simp [hx])⟩

/-! ## Decimal round-trip -/

lemma toDigitChar_facts (n : Nat) (h : n < 10) :
    (toDigitChar n).toNat - 48 = n ∧ isDigitChar (toDigitChar n) = true := by
  interval_cases n <;> exact ⟨by decide, by decide⟩

lemma digitChar_ne (c : Char) (h : isDigitChar c = true) :
    (c == '-') = false ∧ (c == quoteChar) = false ∧ (c == '[') = false ∧
    (c == '{') = false ∧ (c == 'n') = false ∧ (c == 't') = false ∧
    (c == 'f') = false ∧ isWsChar c = false ∧ (c == ']') = false ∧
    (c == '}') = false := by
  simp only [isDigitChar, Bool.or_eq_true, beq_iff_eq] at h
  rcases h with ((((((((rfl | rfl) | rfl) | rfl) | rfl) | rfl) | rfl) | rfl) | rfl) | rfl <;>
    exact ⟨by decide, by decide, by decide, by decide, by decide, by decide, by decide,
      by decide, by decide, by decide⟩

lemma natToCharsGo_fuel : ∀ n f1 f2, n < f1 → n < f2 →
    natToCharsGo f1 n = natToCharsGo f2 n := by
  intro n
  induction n using Nat.strong_induction_on with
  | _ n ih =>
    intro f1 f2 h1 h2
    cases f1 with
    | zero => omega
    | succ g1 =>
      cases f2 with
      | zero => omega
      | succ g2 =>
        by_cases hn : n < 10
        · simp [natToCharsGo, hn]
        · have hdiv : n / 10 < n := Nat.div_lt_self (by omega) (by omega)
          simp only [natToCharsGo, hn, if_false]
          rw [ih (n / 10) hdiv g1 g2 (by omega) (by omega)]

lemma natToChars_small (n : Nat) (h : n < 10) : natToChars n = [toDigitChar n] := by
  simp [natToChars, natToCharsGo, h]

lemma natToChars_unfold (n : Nat) (h : 10 ≤ n) :
    natToChars n = natToChars (n / 10) ++ [toDigitChar (n % 10)] := by
  have hdiv : n / 10 < n := Nat.div_lt_self (by omega) (by omega)
  unfold natToChars
  rw [show natToCharsGo (n + 1) n =
    natToCharsGo n (n / 10) ++ [toDigitChar (n % 10)] from by
      simp [natToCharsGo, show ¬ n < 10 from by omega]]
  rw [natToCharsGo_fuel (n / 10) n (n / 10 + 1) (by omega) (by omega)]

lemma natToChars_digits : ∀ n, ∀ c ∈ natToChars n, isDigitChar c = true := by
  intro n
  induction n using Nat.strong_induction_on with
  | _ n ih =>
    by_cases hn : n < 10
    · rw [natToChars_small n hn]
      intro c hc
      simp only [List.mem_singleton] at hc
      rw [hc]
      exact (toDigitChar_facts n hn).2
    · rw [natToChars_unfold n (by omega)]
      intro c hc
      rcases List.mem_append.mp hc with hc | hc
      · exact ih (n / 10) (Nat.div_lt_self (by omega) (by omega)) c hc
      · simp only [List.mem_singleton] at hc
        rw [hc]
        exact (toDigitChar_facts (n % 10) (by omega)).2

lemma natToChars_ne_nil (n : Nat) : natToChars n ≠ [] := by
  by_cases hn : n < 10
  · rw [natToChars_small n hn]
    simp
  · rw [natToChars_unfold n (by omega)]
    simp

lemma digitsToNat_append (l1 l2 : List Char) : ∀ acc,
    digitsToNat acc (l1 ++ l2) = digitsToNat (digitsToNat acc l1) l2 := by
  induction l1 with
  | nil => intro acc; rfl
  | cons c cs ih =>
    intro acc
    show digitsToNat (acc * 10 + (c.toNat - 48)) (cs ++ l2) =
      digitsToNat (digitsToNat (acc * 10 + (c.toNat - 48)) cs) l2
    rw [ih]

lemma natToChars_val : ∀ n, digitsToNat 0 (natToChars n) = n := by
  intro n
  induction n using Nat.strong_induction_on with
  | _ n ih =>
    by_cases hn : n < 10
    · rw [natToChars_small n hn]
      show 0 * 10 + ((toDigitChar n).toNat - 48) = n
      rw [(toDigitChar_facts n hn).1]
      omega
    · rw [natToChars_unfold n (by omega), digitsToNat_append]
      rw [ih (n / 10) (Nat.div_lt_self (by omega) (by omega))]
      show n / 10 * 10 + ((toDigitChar (n % 10)).toNat - 48) = n
      rw [(toDigitChar_facts (n % 10) (by omega)).1]
      omega

lemma takeWhile_natToChars (n : Nat) (rest : List Char)
    (hrest : ∀ c, rest.head? = some c → isDigitChar c = false) :
    (natToChars n ++ rest).takeWhile isDigitChar = natToChars n ∧
    (natToChars n ++ rest).dropWhile isDigitChar = rest := by
  constructor
  · rw [takeWhile_append_all _ _ _ (natToChars_digits n)]
    cases rest with
    | nil => simp
    | cons c t =>
      rw [List.takeWhile_cons]
      simp [hrest c rfl]
  · rw [dropWhile_append_all _ _ _ (natToChars_digits n)]
    cases rest with
    | nil => rfl
    | cons c t =>
      rw [List.dropWhile_cons]
      simp [hrest c rfl]

lemma readNum_nonneg (m : Nat) (rest : List Char)
    (hrest : ∀ c, rest.head? = some c → isDigitChar c = false) :
    readNum (natToChars m ++ rest) = some ((m : Int), rest) := by
  obtain ⟨tw, dw⟩ := takeWhile_natToChars m rest hrest
  cases hshape : natToChars m with
  | nil => exact absurd hshape (natToChars_ne_nil m)
  | cons c t =>
    have hcdig : isDigitChar c = true := natToChars_digits m c (by rw [hshape]; simp)
    have hval : digitsToNat 0 (c :: t) = m := by rw [← hshape]; exact natToChars_val m
    rw [hshape] at tw dw
    simp only [List.cons_append] at tw dw
    unfold readNum
    simp only [List.cons_append]
    split
    · rename_i r heq
      simp only [List.cons.injEq] at heq
      exact absurd heq.1 (by simpa using (digitChar_ne c hcdig).1)
    · rw [tw, dw]
      simp [hval]

lemma readNum_intToChars (n : Int) (rest : List Char)
    (hrest : ∀ c, rest.head? = some c → isDigitChar c = false) :
    readNum (intToChars n ++ rest) = some (n, rest) := by
  by_cases hn : n < 0
  · have hform : intToChars n = '-' :: natToChars n.natAbs := by
      simp [intToChars, hn]
    obtain ⟨tw, dw⟩ := takeWhile_natToChars n.natAbs rest hrest
    rw [hform, List.cons_append]
    unfold readNum
    have hne : (natToChars n.natAbs).isEmpty = false := by
      cases hh : natToChars n.natAbs with
      | nil => exact absurd hh (natToChars_ne_nil _)
      | cons a as => rfl
    split
    · rename_i r heq
      simp only [List.cons.injEq] at heq
      obtain ⟨-, rfl⟩ := heq
      rw [tw, dw]
      simp only [hne, Bool.false_eq_true, if_false, natToChars_val]
      have hv : -((n.natAbs : Nat) : Int) = n := by omega
      rw [hv]
    · rename_i hne2
      exact (hne2 (natToChars n.natAbs ++ rest) rfl).elim
  · have hform : intToChars n = natToChars n.toNat := by
      simp [intToChars, hn]
    rw [hform, readNum_nonneg n.toNat rest hrest]
    have hv : ((n.toNat : Nat) : Int) = n := by omega
    rw [hv]

/-! ## String-escape round-trip -/

lemma hexVal_hexDigitChar (n : Nat) (h : n < 16) : hexVal (hexDigitChar n) = some n := by
  interval_cases n <;> decide

lemma readStr_quote (cs : List Char) : readStr (quoteChar :: cs) = some ([], cs) := by
  rw [readStr.eq_def]
  simp

lemma readStr_other (c : Char) (cs : List Char) (h1 : ¬ c = quoteChar)
    (h2 : ¬ c = '\\') :
    readStr (c :: cs) = (readStr cs).map (fun r => (c :: r.1, r.2)) := by
  rw [readStr.eq_def]
  simp [h1, h2]

lemma readStr_backslash (e : Char) (cs2 : List Char) :
    readStr ('\\' :: e :: cs2) =
    (if e = quoteChar then (readStr cs2).map (fun r => (quoteChar :: r.1, r.2))
     else if e = '\\' then (readStr cs2).map (fun r => ('\\' :: r.1, r.2))
     else if e = '/' then (readStr cs2).map (fun r => ('/' :: r.1, r.2))
     else if e = 'b' then (readStr cs2).map (fun r => (Char.ofNat 8 :: r.1, r.2))
     else if e = 'f' then (readStr cs2).map (fun r => (Char.ofNat 12 :: r.1, r.2))
     else if e = 'n' then (readStr cs2).map (fun r => ('\n' :: r.1, r.2))
     else if e = 'r' then (readStr cs2).map (fun r => ('\r' :: r.1, r.2))
     else if e = 't' then (readStr cs2).map (fun r => ('\t' :: r.1, r.2))
     else if e = 'u' then
       (match cs2 with
        | h1 :: h2 :: h3 :: h4 :: cs3 =>
          (match hexVal h1, hexVal h2, hexVal h3, hexVal h4 with
           | some a, some b, some c1, some d =>
             (readStr cs3).map
               (fun r => (Char.ofNat (((a * 16 + b) * 16 + c1) * 16 + d) :: r.1, r.2))
           | _, _, _, _ => none)
        | _ => none)
     else none) := by
  rw [readStr.eq_def]
  simp [show ¬ (('\\' : Char) = quoteChar) from by decide]

lemma readStr_bs_quote (cs2 : List Char) :
    readStr ('\\' :: quoteChar :: cs2) = (readStr cs2).map (fun r => (quoteChar :: r.1, r.2)) := by
  rw [readStr_backslash]
  simp

lemma readStr_bs_bs (cs2 : List Char) :
    readStr ('\\' :: '\\' :: cs2) = (readStr cs2).map (fun r => ('\\' :: r.1, r.2)) := by
  rw [readStr_backslash]
  simp [show ¬ (('\\' : Char) = quoteChar) from by decide]

lemma readStr_bs_b (cs2 : List Char) :
    readStr ('\\' :: 'b' :: cs2) = (readStr cs2).map (fun r => (Char.ofNat 8 :: r.1, r.2)) := by
  rw [readStr_backslash]
  simp [show ¬ (('b' : Char) = quoteChar) from by decide, show ¬ (('b' : Char) = '\\') from by decide, show ¬ (('b' : Char) = '/') from by decide]

lemma readStr_bs_f (cs2 : List Char) :
    readStr ('\\' :: 'f' :: cs2) = (readStr cs2).map (fun r => (Char.ofNat 12 :: r.1, r.2)) := by
  rw [readStr_backslash]
  simp [show ¬ (('f' : Char) = quoteChar) from by decide, show ¬ (('f' : Char) = '\\') from by decide, show ¬ (('f' : Char) = '/') from by decide, show ¬ (('f' : Char) = 'b') from by decide]

lemma readStr_bs_n (cs2 : List Char) :
    readStr ('\\' :: 'n' :: cs2) = (readStr cs2).map (fun r => ('\n' :: r.1, r.2)) := by
  rw [readStr_backslash]
  simp [show ¬ (('n' : Char) = quoteChar) from by decide, show ¬ (('n' : Char) = '\\') from by decide, show ¬ (('n' : Char) = '/') from by decide, show ¬ (('n' : Char) = 'b') from by decide, show ¬ (('n' : Char) = 'f') from by decide]

lemma readStr_bs_r (cs2 : List Char) :
    readStr ('\\' :: 'r' :: cs2) = (readStr cs2).map (fun r => ('\r' :: r.1, r.2)) := by
  rw [readStr_backslash]
  simp [show ¬ (('r' : Char) = quoteChar) from by decide, show ¬ (('r' : Char) = '\\') from by decide, show ¬ (('r' : Char) = '/') from by decide, show ¬ (('r' : Char) = 'b') from by decide, show ¬ (('r' : Char) = 'f') from by decide, show ¬ (('r' : Char) = 'n') from by decide]

lemma readStr_bs_t (cs2 : List Char) :
    readStr ('\\' :: 't' :: cs2) = (readStr cs2).map (fun r => ('\t' :: r.1, r.2)) := by
  rw [readStr_backslash]
  simp [show ¬ (('t' : Char) = quoteChar) from by decide, show ¬ (('t' : Char) = '\\') from by decide, show ¬ (('t' : Char) = '/') from by decide, show ¬ (('t' : Char) = 'b') from by decide, show ¬ (('t' : Char) = 'f') from by decide, show ¬ (('t' : Char) = 'n') from by decide, show ¬ (('t' : Char) = 'r') from by decide]

lemma readStr_bs_u (h1 h2 h3 h4 : Char) (cs3 : List Char) :
    readStr ('\\' :: 'u' :: h1 :: h2 :: h3 :: h4 :: cs3) =
    (match hexVal h1, hexVal h2, hexVal h3, hexVal h4 with
     | some a, some b, some c1, some d =>
       (readStr cs3).map
         (fun r => (Char.ofNat (((a * 16 + b) * 16 + c1) * 16 + d) :: r.1, r.2))
     | _, _, _, _ => none) := by
  rw [readStr_backslash]
  simp [show ¬ (('u' : Char) = quoteChar) from by decide, show ¬ (('u' : Char) = '\\') from by decide, show ¬ (('u' : Char) = '/') from by decide, show ¬ (('u' : Char) = 'b') from by decide, show ¬ (('u' : Char) = 'f') from by decide, show ¬ (('u' : Char) = 'n') from by decide, show ¬ (('u' : Char) = 'r') from by decide, show ¬ (('u' : Char) = 't') from by decide]

lemma readStr_escape : ∀ (s rest : List Char),
    readStr (escapeString s ++ quoteChar :: rest) = some (s, rest) := by
  intro s
  induction s with
  | nil =>
    intro rest
    rw [show escapeString [] = [] from rfl, List.nil_append, readStr_quote]
  | cons c s ih =>
    intro rest
    rw [show escapeString (c :: s) = escapeChar c ++ escapeString s from by
      simp [escapeString], List.append_assoc]
    by_cases h1 : c = quoteChar
    · subst h1
      rw [show escapeChar quoteChar = ['\\', quoteChar] from by decide]
      rw [show (['\\', quoteChar] : List Char) ++ (escapeString s ++ quoteChar :: rest) =
        '\\' :: quoteChar :: (escapeString s ++ quoteChar :: rest) from rfl]
      rw [readStr_bs_quote, ih rest]
      rfl
    by_cases h2 : c = '\\'
    · subst h2
      rw [show escapeChar '\\' = ['\\', '\\'] from by decide]
      rw [show (['\\', '\\'] : List Char) ++ (escapeString s ++ quoteChar :: rest) =
        '\\' :: '\\' :: (escapeString s ++ quoteChar :: rest) from rfl]
      rw [readStr_bs_bs, ih rest]
      rfl
    by_cases h3 : c = Char.ofNat 8
    · subst h3
      rw [show escapeChar (Char.ofNat 8) = ['\\', 'b'] from by decide]
      rw [show (['\\', 'b'] : List Char) ++ (escapeString s ++ quoteChar :: rest) =
        '\\' :: 'b' :: (escapeString s ++ quoteChar :: rest) from rfl]
      rw [readStr_bs_b, ih rest]
      rfl
    by_cases h4 : c = '\t'
    · subst h4
      rw [show escapeChar '\t' = ['\\', 't'] from by decide]
      rw [show (['\\', 't'] : List Char) ++ (escapeString s ++ quoteChar :: rest) =
        '\\' :: 't' :: (escapeString s ++ quoteChar :: rest) from rfl]
      rw [readStr_bs_t, ih rest]
      rfl
    by_cases h5 : c = '\n'
    · subst h5
      rw [show escapeChar '\n' = ['\\', 'n'] from by decide]
      rw [show (['\\', 'n'] : List Char) ++ (escapeString s ++ quoteChar :: rest) =
        '\\' :: 'n' :: (escapeString s ++ quoteChar :: rest) from rfl]
      rw [readStr_bs_n, ih rest]
      rfl
    by_cases h6 : c = Char.ofNat 12
    · subst h6
      rw [show escapeChar (Char.ofNat 12) = ['\\', 'f'] from by decide]
      rw [show (['\\', 'f'] : List Char) ++ (escapeString s ++ quoteChar :: rest) =
        '\\' :: 'f' :: (escapeString s ++ quoteChar :: rest) from rfl]
      rw [readStr_bs_f, ih rest]
      rfl
    by_cases h7 : c = '\r'
    · subst h7
      rw [show escapeChar '\r' = ['\\', 'r'] from by decide]
      rw [show (['\\', 'r'] : List Char) ++ (escapeString s ++ quoteChar :: rest) =
        '\\' :: 'r' :: (escapeString s ++ quoteChar :: rest) from rfl]
      rw [readStr_bs_r, ih rest]
      rfl
    by_cases h8 : c.toNat < 32
    · have hesc : escapeChar c =
          ['\\', 'u', '0', '0', hexDigitChar (c.toNat / 16), hexDigitChar (c.toNat % 16)] := by
        simp [escapeChar, h1, h2, h3, h4, h5, h6, h7, h8]
      rw [hesc]
      rw [show (['\\', 'u', '0', '0', hexDigitChar (c.toNat / 16),
          hexDigitChar (c.toNat % 16)] : List Char) ++ (escapeString s ++ quoteChar :: rest) =
        '\\' :: 'u' :: '0' :: '0' :: hexDigitChar (c.toNat / 16) ::
          hexDigitChar (c.toNat % 16) :: (escapeString s ++ quoteChar :: rest) from rfl]
      rw [readStr_bs_u]
      rw [show hexVal '0' = some 0 from by decide,
        hexVal_hexDigitChar (c.toNat / 16) (by omega),
        hexVal_hexDigitChar (c.toNat % 16) (by omega)]
      dsimp only
      rw [show ((0 * 16 + 0) * 16 + c.toNat / 16) * 16 + c.toNat % 16 = c.toNat from by omega,
        Char.ofNat_toNat, ih rest]
      rfl
    · have hesc : escapeChar c = [c] := by
        simp [escapeChar, h1, h2, h3, h4, h5, h6, h7, h8]
      rw [hesc]
      rw [show ([c] : List Char) ++ (escapeString s ++ quoteChar :: rest) =
        c :: (escapeString s ++ quoteChar :: rest) from rfl]
      rw [readStr_other c _ h1 h2, ih rest]
      rfl

/-! ## Head-shape facts about serializations -/

lemma startsWithL_head_ne (p c : Char) (ps cs : List Char) (h : (p == c) = false) :
    startsWithL (p :: ps) (c :: cs) = false := by
  simp [startsWithL, h]

lemma charBeq_comm (a b : Char) : (a == b) = (b == a) := by
  by_cases h : a = b
  · subst h; rfl
  · rw [show (a == b) = false from by simp [h],
      show (b == a) = false from by simp [Ne.symm h]]

lemma skipWs_cons_false (c : Char) (t : List Char) (h : isWsChar c = false) :
    skipWs (c :: t) = c :: t := by
  simp [skipWs, List.dropWhile_cons, h]

lemma sizeJS_pos (v : JSValue) : 1 ≤ sizeJS v := by
  cases v <;> simp [sizeJS]

lemma sizeElems_pos (vs : List JSValue) : 1 ≤ sizeElems vs := by
  cases vs <;> simp [sizeElems]

lemma sizeMembers_pos (ms : List (List Char × JSValue)) : 1 ≤ sizeMembers ms := by
  cases ms with
  | nil => simp [sizeMembers]
  | cons kv t => obtain ⟨k, v⟩ := kv; simp [sizeMembers]

lemma intToChars_head (n : Int) :
    ∃ c t, intToChars n = c :: t ∧ (isDigitChar c = true ∨ c = '-') := by
  by_cases hn : n < 0
  · exact ⟨'-', natToChars n.natAbs, by simp [intToChars, hn], .inr rfl⟩
  · have hform : intToChars n = natToChars n.toNat := by simp [intToChars, hn]
    cases hshape : natToChars n.toNat with
    | nil => exact absurd hshape (natToChars_ne_nil _)
    | cons c t =>
      refine ⟨c, t, by rw [hform, hshape], .inl ?_⟩
      exact natToChars_digits n.toNat c (by rw [hshape]; simp)

lemma numHead_ne (c : Char) (h : isDigitChar c = true ∨ c = '-') :
    isWsChar c = false ∧ (c == quoteChar) = false ∧ (c == '[') = false ∧
    (c == '{') = false ∧ ('n' == c) = false ∧ ('t' == c) = false ∧
    ('f' == c) = false ∧ (c == ']') = false ∧ (c == '}') = false := by
  rcases h with h | rfl
  · simp only [isDigitChar, Bool.or_eq_true, beq_iff_eq] at h
    rcases h with ((((((((rfl | rfl) | rfl) | rfl) | rfl) | rfl) | rfl) | rfl) | rfl) | rfl <;>
      exact ⟨by decide, by decide, by decide, by decide, by decide, by decide, by decide,
        by decide, by decide⟩
  · exact ⟨by decide, by decide, by decide, by decide, by decide, by decide, by decide,
      by decide, by decide⟩

lemma stringify_head_facts (v : JSValue) :
    ∃ c t, jsonStringifyL v = c :: t ∧ isWsChar c = false ∧
      (c == ']') = false ∧ (c == '}') = false := by
  cases v with
  | null => exact ⟨'n', _, rfl, by decide, by decide, by decide⟩
  | bool b =>
    cases b
    · exact ⟨'f', _, rfl, by decide, by decide, by decide⟩
    · exact ⟨'t', _, rfl, by decide, by decide, by decide⟩
  | num n =>
    obtain ⟨c, t, hshape, hc⟩ := intToChars_head n
    obtain ⟨h1, _, _, _, _, _, _, h8, h9⟩ := numHead_ne c hc
    exact ⟨c, t, hshape, h1, h8, h9⟩
  | str s => exact ⟨quoteChar, _, rfl, by decide, by decide, by decide⟩
  | arr vs => exact ⟨'[', _, rfl, by decide, by decide, by decide⟩
  | obj ms => exact ⟨'{', _, rfl, by decide, by decide, by decide⟩

lemma stringifyElems_cons_shape (v : JSValue) (vs : List JSValue) :
    ∃ u, stringifyElems (v :: vs) = jsonStringifyL v ++ u := by
  cases vs with
  | nil => exact ⟨[], by simp [stringifyElems]⟩
  | cons v2 vs2 => exact ⟨',' :: stringifyElems (v2 :: vs2), rfl⟩

lemma headNotDigit (d : Char) (hd : isDigitChar d = false) (rest : List Char) :
    ∀ c, (d :: rest).head? = some c → isDigitChar c = false := by
  intro c hc
  rw [List.head?_cons, Option.some.injEq] at hc
  rw [← hc]
  exact hd

lemma jparse_roundtrip : ∀ fuel : Nat,
    (∀ (v : JSValue) (rest : List Char), sizeJS v ≤ fuel →
      (∀ c, rest.head? = some c → isDigitChar c = false) →
      jparse fuel .val (jsonStringifyL v ++ rest) = some (.one v, rest)) ∧
    (∀ (vs : List JSValue) (rest : List Char), sizeElems vs ≤ fuel → vs ≠ [] →
      jparse fuel .elems (stringifyElems vs ++ ']' :: rest) = some (.elems vs, rest)) ∧
    (∀ (ms : List (List Char × JSValue)) (rest : List Char), sizeMembers ms ≤ fuel →
      ms ≠ [] →
      jparse fuel .members (stringifyMembers ms ++ '}' :: rest) = some (.members ms, rest)) := by
  intro fuel
  induction fuel with
  | zero =>
    refine ⟨fun v rest hs _ => absurd hs ?_, fun vs rest hs _ => absurd hs ?_,
      fun ms rest hs _ => absurd hs ?_⟩
    · have := sizeJS_pos v; omega
    · have := sizeElems_pos vs; omega
    · have := sizeMembers_pos ms; omega
  | succ f ih =>
    obtain ⟨ihv, ihe, ihm⟩ := ih
    refine ⟨?_, ?_, ?_⟩
    · -- PMode.val
      intro v rest hs hrest
      cases v with
      | null =>
        show jparse (f+1) .val ('n' :: 'u' :: 'l' :: 'l' :: rest) = some (.one .null, rest)
        simp only [jparse]
        rw [skipWs_cons_false _ _ (by decide)]
        have h1 : (('n':Char) == quoteChar) = false := by decide
        have h2 : (('n':Char) == '[') = false := by decide
        have h3 : (('n':Char) == '{') = false := by decide
        have h4 : startsWithL "null".data ('n' :: 'u' :: 'l' :: 'l' :: rest) = true := by
          simpa using startsWithL_self_append "null".data rest
        simp [h1, h2, h3, h4]
      | bool b =>
        cases b with
        | true =>
          show jparse (f+1) .val ('t' :: 'r' :: 'u' :: 'e' :: rest)
            = some (.one (.bool true), rest)
          simp only [jparse]
          rw [skipWs_cons_false _ _ (by decide)]
          have h1 : (('t':Char) == quoteChar) = false := by decide
          have h2 : (('t':Char) == '[') = false := by decide
          have h3 : (('t':Char) == '{') = false := by decide
          have h4 : startsWithL "null".data ('t' :: 'r' :: 'u' :: 'e' :: rest) = false :=
            startsWithL_head_ne 'n' 't' _ _ (by decide)
          have h5 : startsWithL "true".data ('t' :: 'r' :: 'u' :: 'e' :: rest) = true := by
            simpa using startsWithL_self_append "true".data rest
          simp [h1, h2, h3, h4, h5]
        | false =>
          show jparse (f+1) .val ('f' :: 'a' :: 'l' :: 's' :: 'e' :: rest)
            = some (.one (.bool false), rest)
          simp only [jparse]
          rw [skipWs_cons_false _ _ (by decide)]
          have h1 : (('f':Char) == quoteChar) = false := by decide
          have h2 : (('f':Char) == '[') = false := by decide
          have h3 : (('f':Char) == '{') = false := by decide
          have h4 : startsWithL "null".data ('f' :: 'a' :: 'l' :: 's' :: 'e' :: rest) = false :=
            startsWithL_head_ne 'n' 'f' _ _ (by decide)
          have h5 : startsWithL "true".data ('f' :: 'a' :: 'l' :: 's' :: 'e' :: rest) = false :=
            startsWithL_head_ne 't' 'f' _ _ (by decide)
          have h6 : startsWithL "false".data ('f' :: 'a' :: 'l' :: 's' :: 'e' :: rest) = true := by
            simpa using startsWithL_self_append "false".data rest
          simp [h1, h2, h3, h4, h5, h6]
      | num n =>
        obtain ⟨c, t, hsh, hc⟩ := intToChars_head n
        obtain ⟨hws, hq, hlb, hob, hn, ht, hf, _, _⟩ := numHead_ne c hc
        show jparse (f+1) .val (intToChars n ++ rest) = some (.one (.num n), rest)
        rw [hsh, List.cons_append]
        simp only [jparse]
        rw [skipWs_cons_false _ _ hws]
        have h4 : startsWithL "null".data (c :: (t ++ rest)) = false :=
          startsWithL_head_ne 'n' c _ _ hn
        have h5 : startsWithL "true".data (c :: (t ++ rest)) = false :=
          startsWithL_head_ne 't' c _ _ ht
        have h6 : startsWithL "false".data (c :: (t ++ rest)) = false :=
          startsWithL_head_ne 'f' c _ _ hf
        simp only [hq, hlb, hob, h4, h5, h6, Bool.false_eq_true, if_false]
        rw [show c :: (t ++ rest) = intToChars n ++ rest from by rw [hsh]; simp]
        rw [readNum_intToChars n rest hrest]
        rfl
      | str s =>
        rw [show jsonStringifyL (.str s) ++ rest
            = quoteChar :: (escapeString s ++ quoteChar :: rest)
            from by simp [jsonStringifyL, stringifyStr]]
        simp only [jparse]
        rw [skipWs_cons_false _ _ (by decide)]
        dsimp only
        rw [if_pos (show (quoteChar == quoteChar) = true from rfl)]
        rw [readStr_escape]
        rfl
      | arr vs =>
        cases vs with
        | nil =>
          show jparse (f+1) .val ('[' :: ']' :: rest) = some (.one (.arr []), rest)
          simp only [jparse]
          rw [skipWs_cons_false _ _ (by decide)]
          have h1 : (('[':Char) == quoteChar) = false := by decide
          have h2 : (('[':Char) == '[') = true := by decide
          simp only [h1, h2, Bool.false_eq_true, if_false, if_true]
          rw [skipWs_cons_false _ _ (by decide)]
          split
          · rename_i cs2 heq
            rw [List.cons.injEq] at heq
            rw [← heq.2]
          · rename_i h3
            exact absurd rfl (h3 rest)
        | cons v vs2 =>
          have hsz : sizeElems (v :: vs2) ≤ f := by
            simp only [sizeJS] at hs
            omega
          obtain ⟨c, t, hsh, hws, hrb, _⟩ := stringify_head_facts v
          obtain ⟨u, hu⟩ := stringifyElems_cons_shape v vs2
          show jparse (f+1) .val
            (('[' :: stringifyElems (v :: vs2) ++ [']']) ++ rest) = _
          rw [show ('[' :: stringifyElems (v :: vs2) ++ [']']) ++ rest
              = '[' :: (stringifyElems (v :: vs2) ++ ']' :: rest) from by simp]
          simp only [jparse]
          rw [skipWs_cons_false _ _ (by decide)]
          have h1 : (('[':Char) == quoteChar) = false := by decide
          have h2 : (('[':Char) == '[') = true := by decide
          simp only [h1, h2, Bool.false_eq_true, if_false, if_true]
          have hsw2 : skipWs (stringifyElems (v :: vs2) ++ ']' :: rest)
              = c :: (t ++ (u ++ ']' :: rest)) := by
            rw [hu, hsh]
            simp only [List.cons_append, List.append_assoc]
            exact skipWs_cons_false _ _ hws
          rw [hsw2]
          split
          · rename_i cs2 heq
            rw [List.cons.injEq] at heq
            exact absurd heq.1 (by simpa using hrb)
          · rw [ihe (v :: vs2) rest hsz (List.cons_ne_nil v vs2)]
      | obj ms =>
        cases ms with
        | nil =>
          show jparse (f+1) .val ('{' :: '}' :: rest) = some (.one (.obj []), rest)
          simp only [jparse]
          rw [skipWs_cons_false _ _ (by decide)]
          have h1 : (('{':Char) == quoteChar) = false := by decide
          have h2 : (('{':Char) == '[') = false := by decide
          have h3 : (('{':Char) == '{') = true := by decide
          simp only [h1, h2, h3, Bool.false_eq_true, if_false, if_true]
          rw [skipWs_cons_false _ _ (by decide)]
          split
          · rename_i cs2 heq
            rw [List.cons.injEq] at heq
            rw [← heq.2]
          · rename_i h4
            exact absurd rfl (h4 rest)
        | cons m1 ms2 =>
          have hsz : sizeMembers (m1 :: ms2) ≤ f := by
            simp only [sizeJS] at hs
            omega
          obtain ⟨u, hu⟩ : ∃ u, stringifyMembers (m1 :: ms2) = quoteChar :: u := by
            obtain ⟨k, v⟩ := m1
            cases ms2 with
            | nil => exact ⟨escapeString k ++ quoteChar :: ':' :: jsonStringifyL v,
                by simp [stringifyMembers, stringifyStr]⟩
            | cons m2 ms3 =>
              exact ⟨escapeString k ++ quoteChar :: ':' ::
                  (jsonStringifyL v ++ ',' :: stringifyMembers (m2 :: ms3)),
                by simp [stringifyMembers, stringifyStr]⟩
          show jparse (f+1) .val
            (('{' :: stringifyMembers (m1 :: ms2) ++ ['}']) ++ rest) = _
          rw [show ('{' :: stringifyMembers (m1 :: ms2) ++ ['}']) ++ rest
              = '{' :: (stringifyMembers (m1 :: ms2) ++ '}' :: rest) from by simp]
          simp only [jparse]
          rw [skipWs_cons_false _ _ (by decide)]
          have h1 : (('{':Char) == quoteChar) = false := by decide
          have h2 : (('{':Char) == '[') = false := by decide
          have h3 : (('{':Char) == '{') = true := by decide
          simp only [h1, h2, h3, Bool.false_eq_true, if_false, if_true]
          have hsw2 : skipWs (stringifyMembers (m1 :: ms2) ++ '}' :: rest)
              = quoteChar :: (u ++ '}' :: rest) := by
            rw [hu]
            simp only [List.cons_append]
            exact skipWs_cons_false _ _ (by decide)
          rw [hsw2]
          split
          · rename_i cs2 heq
            rw [List.cons.injEq] at heq
            exact absurd heq.1 (by decide)
          · rw [ihm (m1 :: ms2) rest hsz (List.cons_ne_nil m1 ms2)]
    · -- PMode.elems
      intro vs rest hs hne
      cases vs with
      | nil => exact absurd rfl hne
      | cons v vs2 =>
        cases vs2 with
        | nil =>
          have hsz : sizeJS v ≤ f := by
            simp only [sizeElems] at hs
            omega
          show jparse (f+1) .elems (jsonStringifyL v ++ ']' :: rest) = _
          simp only [jparse]
          rw [ihv v (']' :: rest) hsz (headNotDigit ']' (by decide) rest)]
          dsimp only
          rw [skipWs_cons_false _ _ (by decide)]
          simp
        | cons v2 vs3 =>
          have hsz1 : sizeJS v ≤ f := by
            simp only [sizeElems] at hs
            omega
          have hsz2 : sizeElems (v2 :: vs3) ≤ f := by
            simp only [sizeElems] at hs ⊢
            omega
          show jparse (f+1) .elems
            ((jsonStringifyL v ++ ',' :: stringifyElems (v2 :: vs3)) ++ ']' :: rest) = _
          rw [show (jsonStringifyL v ++ ',' :: stringifyElems (v2 :: vs3)) ++ ']' :: rest
              = jsonStringifyL v ++ ',' :: (stringifyElems (v2 :: vs3) ++ ']' :: rest)
              from by simp]
          simp only [jparse]
          rw [ihv v (',' :: (stringifyElems (v2 :: vs3) ++ ']' :: rest)) hsz1
            (headNotDigit ',' (by decide) _)]
          dsimp only
          rw [skipWs_cons_false _ _ (by decide)]
          split
          · rename_i r2 heq
            rw [List.cons.injEq] at heq
            rw [← heq.2, ihe (v2 :: vs3) rest hsz2 (List.cons_ne_nil v2 vs3)]
          · rename_i r2 heq
            rw [List.cons.injEq] at heq
            exact absurd heq.1 (by decide)
          · rename_i h1 h2
            exact absurd rfl (h1 (stringifyElems (v2 :: vs3) ++ ']' :: rest))
    · -- PMode.members
      intro ms rest hs hne
      cases ms with
      | nil => exact absurd rfl hne
      | cons m1 ms2 =>
        obtain ⟨k, v⟩ := m1
        cases ms2 with
        | nil =>
          have hsz : sizeJS v ≤ f := by
            simp only [sizeMembers] at hs
            omega
          show jparse (f+1) .members
            ((stringifyStr k ++ ':' :: jsonStringifyL v) ++ '}' :: rest) = _
          rw [show (stringifyStr k ++ ':' :: jsonStringifyL v) ++ '}' :: rest
              = quoteChar :: (escapeString k ++ quoteChar ::
                  (':' :: (jsonStringifyL v ++ '}' :: rest)))
              from by simp [stringifyStr]]
          simp only [jparse]
          rw [skipWs_cons_false _ _ (by decide)]
          dsimp only
          rw [if_pos (show (quoteChar == quoteChar) = true from rfl)]
          rw [readStr_escape]
          dsimp only
          rw [skipWs_cons_false _ _ (by decide)]
          split
          · rename_i r2 heq
            rw [List.cons.injEq] at heq
            rw [← heq.2, ihv v ('}' :: rest) hsz (headNotDigit '}' (by decide) rest)]
            dsimp only
            rw [skipWs_cons_false _ _ (by decide)]
            split
            · rename_i r4 heq2
              rw [List.cons.injEq] at heq2
              exact absurd heq2.1 (by decide)
            · rename_i r4 heq2
              rw [List.cons.injEq] at heq2
              rw [heq2.2]
            · rename_i h1 h2
              exact absurd rfl (h2 rest)
          · rename_i h1
            exact absurd rfl (h1 (jsonStringifyL v ++ '}' :: rest))
        | cons m2 ms3 =>
          obtain ⟨k2, v2⟩ := m2
          have hsz1 : sizeJS v ≤ f := by
            simp only [sizeMembers] at hs
            omega
          have hsz2 : sizeMembers ((k2, v2) :: ms3) ≤ f := by
            simp only [sizeMembers] at hs ⊢
            omega
          rw [show stringifyMembers ((k, v) :: (k2, v2) :: ms3) ++ '}' :: rest
              = quoteChar :: (escapeString k ++ quoteChar ::
                  (':' :: (jsonStringifyL v ++ ',' ::
                    (stringifyMembers ((k2, v2) :: ms3) ++ '}' :: rest))))
              from by simp [stringifyMembers, stringifyStr]]
          simp only [jparse]
          rw [skipWs_cons_false _ _ (by decide)]
          dsimp only
          rw [if_pos (show (quoteChar == quoteChar) = true from rfl)]
          rw [readStr_escape]
          dsimp only
          rw [skipWs_cons_false _ _ (by decide)]
          split
          · rename_i r2 heq
            rw [List.cons.injEq] at heq
            rw [← heq.2, ihv v
              (',' :: (stringifyMembers ((k2, v2) :: ms3) ++ '}' :: rest)) hsz1
              (headNotDigit ',' (by decide) _)]
            dsimp only
            rw [skipWs_cons_false _ _ (by decide)]
            split
            · rename_i r4 heq2
              rw [List.cons.injEq] at heq2
              rw [← heq2.2,
                ihm ((k2, v2) :: ms3) rest hsz2 (List.cons_ne_nil (k2, v2) ms3)]
            · rename_i r4 heq2
              rw [List.cons.injEq] at heq2
              exact absurd heq2.1 (by decide)
            · rename_i h1 h2
              exact absurd rfl (h1 (stringifyMembers ((k2, v2) :: ms3) ++ '}' :: rest))
          · rename_i h1
            exact absurd rfl
              (h1 (jsonStringifyL v ++ ',' ::
                (stringifyMembers ((k2, v2) :: ms3) ++ '}' :: rest)))

lemma sizeJS_le_len : ∀ v : JSValue, sizeJS v ≤ (jsonStringifyL v).length + 1 := by
  refine jsval_ind _ ?_ ?_ ?_ ?_ ?_ ?_
  · simp [sizeJS]
  · intro b; cases b <;> simp [sizeJS, jsonStringifyL]
  · intro n; simp [sizeJS]
  · intro s; simp [sizeJS]
  · intro vs ih
    have key : sizeElems vs ≤ (stringifyElems vs).length + 2 := by
      induction vs with
      | nil => simp [sizeElems]
      | cons v vs2 ihl =>
        have hv := ih v (by simp)
        have h2 : sizeElems vs2 ≤ (stringifyElems vs2).length + 2 :=
          ihl (fun x hx => ih x (by simp [hx]))
        cases vs2 with
        | nil =>
          simp only [sizeElems, stringifyElems] at *
          omega
        | cons v2 vs3 =>
          simp only [sizeElems, stringifyElems, List.length_append, List.length_cons]
            at h2 ⊢
          omega
    simp only [sizeJS, jsonStringifyL, List.length_append, List.length_cons]
    omega
  · intro ms ih
    have key : sizeMembers ms ≤ (stringifyMembers ms).length + 2 := by
      induction ms with
      | nil => simp [sizeMembers]
      | cons m1 ms2 ihl =>
        obtain ⟨k, v⟩ := m1
        have hv : sizeJS v ≤ (jsonStringifyL v).length + 1 := ih (k, v) (by simp)
        have h2 : sizeMembers ms2 ≤ (stringifyMembers ms2).length + 2 :=
          ihl (fun x hx => ih x (by simp [hx]))
        cases ms2 with
        | nil =>
          simp only [sizeMembers, stringifyMembers, List.length_append, List.length_cons]
            at *
          omega
        | cons m2 ms3 =>
          obtain ⟨k2, v2⟩ := m2
          simp only [sizeMembers, stringifyMembers, List.length_append, List.length_cons]
            at h2 ⊢
          omega
    simp only [sizeJS, jsonStringifyL, List.length_append, List.length_cons]
    omega

lemma jsonParseL_stringify (v : JSValue) : jsonParseL (jsonStringifyL v) = some v := by
  have hp : jparse ((jsonStringifyL v).length + 1) .val (jsonStringifyL v ++ [])
      = some (.one v, []) :=
    (jparse_roundtrip _).1 v [] (sizeJS_le_len v) (fun c hc => by simp at hc)
  rw [List.append_nil] at hp
  unfold jsonParseL
  rw [hp]
  simp [skipWs]

lemma deepCopy_eq_some_self (v : JSValue) : deepCopy v = some v := by
  unfold deepCopy
  split
  · exact jsonParseL_stringify v
  · rfl

/-- C9: `deepCopy` round-trips under `deepEquals`: for every JSON-serializable
object (modelled by a well-formed `JSValue`), `deepCopy` succeeds and its result
is `deepEquals`-equal to the argument; and for every non-object input
(`typeof` not `"object"`), `deepCopy` returns its argument unchanged. -/
theorem deepCopy_roundtrip :
    (∀ v : JSValue, jsWellFormed v = true →
      ∃ w, deepCopy v = some w ∧ deepEquals w v = true) ∧
    (∀ v : JSValue, typeofJS v ≠ "object" → deepCopy v = some v) :=
  ⟨fun v _ => ⟨v, deepCopy_eq_some_self v, by simp [deepEquals, jsvBeq_refl]⟩,
   fun v _ => deepCopy_eq_some_self v⟩

/-- Witness for C9 at a concrete nested object and a concrete number. -/
theorem deepCopy_roundtrip_witness :
    (jsWellFormed (.obj [("a".data, .arr [.num 1, .str "x".data]), ("b".data, .null)])
        = true ∧
      ∃ w, deepCopy (.obj [("a".data, .arr [.num 1, .str "x".data]), ("b".data, .null)])
          = some w ∧
        deepEquals w (.obj [("a".data, .arr [.num 1, .str "x".data]), ("b".data, .null)])
          = true) ∧
    (typeofJS (.num 3) ≠ "object" ∧ deepCopy (.num 3) = some (.num 3)) :=
  ⟨⟨by decide, deepCopy_roundtrip.1 _ (by decide)⟩,
   ⟨by decide, deepCopy_roundtrip.2 _ (by decide)⟩⟩
